import Mathlib

set_option maxRecDepth 100000

/-!
Verification development for the wave-function-collapse (WFC) tile-map
engine of this repository.  The definitions below are a shallow embedding
of `src/wfc_stepper.ts` (the later of the two versions kept in the
repository, the one with weighted collapse and the macro grass bias) and
of the shared helpers it uses; `src/wfc.ts` contains the same
`buildVariants`/`buildCompat`/`opposite` code, so one embedding covers
both.  Machine 32-bit words are modelled as `Nat` with explicit
`% 2 ^ 32` where JavaScript coerces to unsigned 32-bit; `Uint32Array`s
are modelled as `List Nat` indexed with a default of `0` (a typed-array
read out of bounds never happens on the paths proved about, and a
typed-array write out of bounds is a no-op, which `List.set` matches).
JavaScript numbers on the random path are modelled as exact rationals;
the places where double rounding could in principle differ are noted in
comments at the definition concerned.
-/

/-- Read of a word array (`Uint32Array`) at index `i`; out-of-range reads
are only ever performed on paths where the surrounding code guarantees the
index is in range, and default to `0`. -/
def wget (l : List Nat) (i : Nat) : Nat := l.getD i 0

/-- Base-2 logarithm with explicit fuel (32 suffices for 32-bit words); the
recursion is structural so the kernel can evaluate it. -/
def log2Fuel : Nat → Nat → Nat
  | 0, _ => 0
  | fuel + 1, n => if 2 ≤ n then log2Fuel fuel (n / 2) + 1 else 0

/-- `popLowestBitIndex` of the source (`Math.clz32(x & -x) ^ 31`): for a power
of two `2 ^ k` with `k < 32`, `clz32` is `31 - k` and `(31 - k) ^ 31 = k`, so
the function is the base-2 logarithm of the isolated lowest set bit. -/
def popLowestBitIndex (x : Nat) : Nat := log2Fuel 32 (x &&& (4294967296 - x))

/-- The set-bit enumeration loop `while (bits !== 0) { bit = pop(bits); bits &= bits - 1 }`
of the source, with explicit fuel: each iteration clears the lowest set bit,
so 32 iterations exhaust any 32-bit word. -/
def bitIndicesFuel : Nat → Nat → List Nat
  | 0, _ => []
  | fuel + 1, bits =>
    if bits = 0 then []
    else popLowestBitIndex bits :: bitIndicesFuel fuel (bits &&& (bits - 1))

def bitIndices (bits : Nat) : List Nat := bitIndicesFuel 32 bits

/-! ### Data model (`TileDef`, `Variant`) and catalog preparation -/
/-- Exact JavaScript-number model for the weight/roll arithmetic: a plain
fraction (numerator, positive denominator), added/compared by
cross-multiplication with no normalization, so every operation is a
structural computation.  All doubles the engine actually manipulates on
this path (tile weights, `rng() * total`, the running roll) are exactly
representable this way. -/
structure JsNum where
  num : Int
  den : Nat
deriving DecidableEq

/-- The fraction `n` (denominator 1). -/
def JsNum.ofNat (n : Nat) : JsNum := ⟨n, 1⟩

def qAdd (a b : JsNum) : JsNum := ⟨a.num * b.den + b.num * a.den, a.den * b.den⟩

def qSub (a b : JsNum) : JsNum := ⟨a.num * b.den - b.num * a.den, a.den * b.den⟩

def qMul (a b : JsNum) : JsNum := ⟨a.num * b.num, a.den * b.den⟩

/-- `a <= b` by cross-multiplication (valid because denominators are kept
positive). -/
def qLe (a b : JsNum) : Bool := a.num * b.den ≤ b.num * a.den

def qLt (a b : JsNum) : Bool := a.num * b.den < b.num * a.den

/-- `Math.floor`. -/
def qFloor (a : JsNum) : Int := Int.fdiv a.num a.den

/-- The four edge strings of a tile (`edges: { n; e; s; w }` in the source). -/
structure Edges where
  n : String
  e : String
  s : String
  w : String
deriving DecidableEq

/-- `TileDef` of `src/wfc_stepper.ts` (second version): `weight?` is an
optional number, modelled as `Option ℚ`. -/
structure TileDef where
  id : String
  baseId : String
  file : String
  edges : Edges
  weight : Option JsNum
deriving DecidableEq

/-- `Variant = TileDef & { rot: 0|1|2|3 }`. -/
structure Variant extends TileDef where
  rot : Nat
deriving DecidableEq

/-- `rotateEdges90CW`: CW rotation takes N from W, E from N, S from E, W from S. -/
def rotateEdges90CW (e : Edges) : Edges := ⟨e.w, e.n, e.e, e.s⟩

/-- The dedup key of `buildVariants`:
`` `${t.file}|${edges.n}${edges.e}${edges.s}${edges.w}` `` — note the four
edge strings are concatenated with no separator between them. -/
def variantKey (file : String) (e : Edges) : String :=
  file ++ "|" ++ e.n ++ e.e ++ e.s ++ e.w

/-- The variant pushed for tile `t` at rotation step `r` with current `edges`. -/
def mkRotVariant (t : TileDef) (r : Nat) (e : Edges) : Variant :=
  { t with id := t.id ++ "__r" ++ toString r, edges := e, rot := r }

/-- Inner rotation loop of `buildVariants` (`for r = 0..3`), carrying the
incrementally rotated `edges`, the `seen` key set and the output list. -/
def buildVariantsRotGo (t : TileDef) :
    List Nat → Edges → List String → List Variant → List String × List Variant
  | [], _, seen, out => (seen, out)
  | r :: rs, e, seen, out =>
    let key := variantKey t.file e
    if key ∈ seen then buildVariantsRotGo t rs (rotateEdges90CW e) seen out
    else buildVariantsRotGo t rs (rotateEdges90CW e) (key :: seen)
      (out ++ [mkRotVariant t r e])

/-- Outer loop of `buildVariants` over the base tiles. -/
def buildVariantsGo : List TileDef → List String → List Variant →
    List String × List Variant
  | [], seen, out => (seen, out)
  | t :: ts, seen, out =>
    let p := buildVariantsRotGo t [0, 1, 2, 3] t.edges seen out
    buildVariantsGo ts p.1 p.2

/-- `buildVariants` of the source: without rotation each tile becomes its own
rotation-0 variant; with rotation the four CW rotations are generated and
deduplicated by `variantKey`, earliest kept. -/
def buildVariants (tiles : List TileDef) (allowRotate : Bool) : List Variant :=
  if !allowRotate then tiles.map (fun t => { t with rot := 0 })
  else (buildVariantsGo tiles [] []).2

/-! ### Directions, words and the compatibility table -/
/-- Directions are 0 = N, 1 = E, 2 = S, 3 = W. `opposite d = (d + 2) & 3`. -/
def opposite (d : Nat) : Nat := (d + 2) &&& 3

/-- `wordCount`: `(tileCount + 31) >>> 5`. -/
def wordCount (tileCount : Nat) : Nat := (tileCount + 31) >>> 5

/-- The `edge` accessor local to `buildCompat`. -/
def edgeOf (t : Variant) (d : Nat) : String :=
  if d = 0 then t.edges.n
  else if d = 1 then t.edges.e
  else if d = 2 then t.edges.s
  else t.edges.w

/-- Edge of the `a`-th variant of the catalog (all uses are in range; an
out-of-range index yields the empty string). -/
def edgeAt (tiles : List Variant) (a d : Nat) : String :=
  match tiles.get? a with
  | some t => edgeOf t d
  | none => ""

/-- `compat[d][a][b >>> 5] |= 1 << (b & 31)` — set bit `b` of a word array. -/
def setBitW (ws : List Nat) (b : Nat) : List Nat :=
  ws.set (b >>> 5) (wget ws (b >>> 5) ||| 1 <<< (b &&& 31))

/-- Bit `b` of a word array: the membership reading `b ∈ compat[d][a]`. -/
def testBitW (ws : List Nat) (b : Nat) : Bool :=
  (wget ws (b / 32)).testBit (b % 32)

/-- Row `compat[d][a]` as `buildCompat` fills it: the inner `for b` loop of the
source's triple loop (the loop order `a, b, d` of the source commutes to this
per-row form because each `|=` touches only row `(d, a)`). -/
def buildCompatRow (tiles : List Variant) (d a : Nat) : List Nat :=
  (List.range tiles.length).foldl
    (fun row b => if edgeAt tiles a d == edgeAt tiles b (opposite d)
      then setBitW row b else row)
    (List.replicate (wordCount tiles.length) 0)

/-- The full `compat` table of `buildCompat`: 4 directions × `n` rows. -/
def buildCompat (tiles : List Variant) : List (List (List Nat)) :=
  (List.range 4).map (fun d => (List.range tiles.length).map (buildCompatRow tiles d))

/-- Access `compat[d][a]` in the table built by `buildCompat`. -/
def compatRow (compat : List (List (List Nat))) (d a : Nat) : List Nat :=
  (compat.getD d []).getD a []

/-- Concrete two-tile catalog for witnesses. -/
def tileX : TileDef :=
  { id := "X", baseId := "X", file := "x.png",
    edges := ⟨"g", "r", "g", "r"⟩, weight := none }

def tileY : TileDef :=
  { id := "Y", baseId := "Y", file := "y.png",
    edges := ⟨"r", "g", "r", "g"⟩, weight := none }

def catXY : List Variant := buildVariants [tileX, tileY] false

/-! ### C1: the pairwise compatibility test against the spec's key sets -/
/-- Modelled from the spec (§4.2): "the edge key sets of `a.sides[d]` and
`b.sides[opp(d)]`".  In the string-edge stepper a side carries a single
edge string; the spec's key set of such a side is that string as its only
key when non-empty, and the empty set when the side is empty. -/
def specEdgeKeys (s : String) : List String := if s = "" then [] else [s]

/-- Modelled from the spec (§4.2): two key sets are compatible iff they share
at least one key. -/
def specKeysIntersect (a b : List String) : Bool :=
  a.any (fun k => b.contains k)

/-- A single tile all of whose edges are the empty string. -/
def tileBlank : TileDef :=
  { id := "blank", baseId := "blank", file := "blank.png",
    edges := ⟨"", "", "", ""⟩, weight := none }

def catBlank : List Variant := buildVariants [tileBlank] false

/-! ### C9: rotation-variant generation and deduplication -/
/-- Modelled from the spec (§4.1): the four 90°-CW rotation variants a tile
generates, in generation order. -/
def specRotationsOf (t : TileDef) : List Variant :=
  [mkRotVariant t 0 t.edges,
   mkRotVariant t 1 (rotateEdges90CW t.edges),
   mkRotVariant t 2 (rotateEdges90CW (rotateEdges90CW t.edges)),
   mkRotVariant t 3 (rotateEdges90CW (rotateEdges90CW (rotateEdges90CW t.edges)))]

/-- Modelled from the spec (§4.1): the full generation sequence, tiles in
order, each followed by its rotations. -/
def specGenVariants (tiles : List TileDef) : List Variant :=
  tiles.flatMap specRotationsOf

/-- First-occurrence deduplication by a key, earliest kept, threading the
set of keys already seen. -/
def specDedupGo (key : Variant → String) (seen : List String) :
    List Variant → List String × List Variant
  | [] => (seen, [])
  | v :: vs =>
    let k := key v
    if k ∈ seen then specDedupGo key seen vs
    else
      let p := specDedupGo key (k :: seen) vs
      (p.1, v :: p.2)

/-- The concatenated dedup key actually used by the source:
`file |  n-edges ++ e-edges ++ s-edges ++ w-edges` with no separator
between the four edge strings. -/
def codeKey (v : Variant) : String := variantKey v.file v.edges

/-- Modelled from the spec (§4.1): the dedup key as the claim reads it, the
`(file, n, e, s, w)` tuple itself — two variants collide only when the four
edge strings are pairwise identical. -/
def specDedupTupleGo (seen : List (String × Edges)) :
    List Variant → List (String × Edges) × List Variant
  | [] => (seen, [])
  | v :: vs =>
    let k := (v.file, v.edges)
    if k ∈ seen then specDedupTupleGo seen vs
    else
      let p := specDedupTupleGo (k :: seen) vs
      (p.1, v :: p.2)

/-- The rotation sequence still to be generated, from the remaining rotation
counters and the current (incrementally rotated) edge record. -/
def specRotList (t : TileDef) : List Nat → Edges → List Variant
  | [], _ => []
  | r :: rs, e => mkRotVariant t r e :: specRotList t rs (rotateEdges90CW e)

/-- A tile whose rotations have pairwise distinct edge tuples but identical
concatenations: `("ab","","","")` rotates to `("","ab","","")` and so on, all
with concatenation `"ab"`. -/
def tileConcat : TileDef :=
  { id := "A", baseId := "A", file := "f.png",
    edges := ⟨"ab", "", "", ""⟩, weight := none }

/-! ### Domain primitives (per-cell word-packed bitsets) -/
/-- SWAR popcount `countBits32`.  All JS coercions land in `[0, 2^32)`: the
subtraction cannot underflow because `(x >>> 1) &&& 0x55555555 ≤ x`, and the
final multiply is exact in doubles (the product is below `2^53`) before the
`>>> 24` coerces it to an unsigned 32-bit value. -/
def countBits32 (x : Nat) : Nat :=
  let x1 := x - ((x >>> 1) &&& 0x55555555)
  let x2 := (x1 &&& 0x33333333) + ((x1 >>> 2) &&& 0x33333333)
  ((((x2 + (x2 >>> 4)) &&& 0x0f0f0f0f) * 0x01010101) % 4294967296) >>> 24

/-- `setAll`: write `0xffffffff` into every word of one cell's slice. -/
def setAll (domain : List Nat) (cell words : Nat) : List Nat :=
  (List.range words).foldl (fun d w => d.set (cell * words + w) 0xffffffff) domain

/-- `maskUnusedHighBits`: clear the unused high bits of every cell's last
word.  `extra <= 0` in the source is `words * 32 ≤ tileCount` here. -/
def maskUnusedHighBits (domain : List Nat) (cells words tileCount : Nat) : List Nat :=
  if words * 32 ≤ tileCount then domain
  else
    (List.range cells).foldl
      (fun d c =>
        d.set (c * words + (words - 1))
          (wget d (c * words + (words - 1)) &&& (0xffffffff >>> (words * 32 - tileCount))))
      domain

/-- `countDomain`: total popcount of a cell's slice. -/
def countDomain (domain : List Nat) (cell words : Nat) : Nat :=
  (List.range words).foldl (fun t w => t + countBits32 (wget domain (cell * words + w))) 0

/-- `domainIsEmpty`: all words of the cell's slice are zero (the source
returns `false` on the first non-zero word, which `List.all` matches). -/
def domainIsEmpty (domain : List Nat) (cell words : Nat) : Bool :=
  (List.range words).all (fun w => wget domain (cell * words + w) == 0)

/-- `restrictToTile`: zero the slice, then set the chosen tile's bit. -/
def restrictToTile (domain : List Nat) (cell words tileIdx : Nat) : List Nat :=
  ((List.range words).foldl (fun d w => d.set (cell * words + w) 0) domain).set
    (cell * words + (tileIdx >>> 5)) (1 <<< (tileIdx &&& 31))

/-- Scan of `getSingleIndex` over the word indices in order. -/
def getSingleIndexGo (domain : List Nat) (cell words : Nat) : List Nat → Int
  | [] => -1
  | w :: rest =>
    let v := wget domain (cell * words + w)
    if v ≠ 0 then ((w * 32 + popLowestBitIndex v : Nat) : Int)
    else getSingleIndexGo domain cell words rest

/-- `getSingleIndex`: index of the first set bit of the cell's slice, `-1`
when the slice is all zero. -/
def getSingleIndex (domain : List Nat) (cell words : Nat) : Int :=
  getSingleIndexGo domain cell words (List.range words)

/-- Loop body of the word-wise AND: with `prev = dc.1[base+w]` and
`next = prev &&& mask[w]`, store `next` and flag the change when they
differ. -/
def maskStep (mask : List Nat) (base : Nat) (dc : List Nat × Bool) (w : Nat) :
    List Nat × Bool :=
  if wget dc.1 (base + w) &&& wget mask w ≠ wget dc.1 (base + w)
  then (dc.1.set (base + w) (wget dc.1 (base + w) &&& wget mask w), true)
  else dc

/-- `domainAndInPlace`: word-wise AND of the cell's slice with `mask`,
returning the updated array and whether any word changed. -/
def domainAndInPlace (domain : List Nat) (cell words : Nat) (mask : List Nat) :
    List Nat × Bool :=
  (List.range words).foldl (maskStep mask (cell * words)) (domain, false)

/-- `intersectCellWithMask`: first a non-mutating emptiness preview
(`any |= domain[base+w] & mask[w]`), aborting when the intersection would be
empty; otherwise the same word-wise AND loop as `domainAndInPlace` (the two
apply loops are textually identical in the source). -/
def intersectCellWithMask (domain : List Nat) (cell words : Nat) (mask : List Nat) :
    List Nat × Bool :=
  if (List.range words).foldl
      (fun a w => a ||| (wget domain (cell * words + w) &&& wget mask w)) 0 = 0
  then (domain, false)
  else domainAndInPlace domain cell words mask

/-- The set-bit indices of one cell's slice in scan order, as both loops of
the weighted pick and the option collection of the uniform pick produce
them: for each word `w` in order, the bits low-to-high as `w * 32 + bit`. -/
def cellBits (domain : List Nat) (cell words : Nat) : List Nat :=
  (List.range words).foldl
    (fun opts w =>
      opts ++ (bitIndices (wget domain (cell * words + w))).map (fun b => w * 32 + b))
    []

/-! ### The PRNG (`mulberry32`) -/
/-- JS `Math.imul`: signed 32-bit multiply; on unsigned representatives it is
multiplication mod `2^32`. -/
def imul32 (a b : Nat) : Nat := (a * b) % 4294967296

/-- One draw of the `mulberry32` stream of `src/wfc_stepper.ts` (second
version — note its final XOR uses `t >>> 14`, not `x >>> 14`): returns the
new state and the 32-bit output `u`; the JS return value is `u / 2^32`. -/
def rngNext (t : Nat) : Nat × Nat :=
  let t' := (t + 0x6d2b79f5) % 4294967296
  let x1 := imul32 (t' ^^^ (t' >>> 15)) (1 ||| t')
  let x2 := x1 ^^^ ((x1 + imul32 (x1 ^^^ (x1 >>> 7)) (61 ||| x1)) % 4294967296)
  (t', x2 ^^^ (t' >>> 14))

/-! ### Tile picking -/
/-- `pickTileFromDomain` (uniform): collect the set bits, then index with
`(rng() * options.length) | 0`, i.e. `⌊u · len / 2^32⌋` (exact in doubles
for any realistic option count). -/
def pickTileFromDomain (domain : List Nat) (cell words t : Nat) : Int × Nat :=
  let options := cellBits domain cell words
  let p := rngNext t
  (((options.getD (p.2 * options.length / 4294967296) 0 : Nat) : Int), p.1)

/-- `tiles[idx]?.weight ?? 1`. -/
def tileWeight (tiles : List Variant) (idx : Nat) : JsNum :=
  match tiles.get? idx with
  | some tl => tl.weight.getD (JsNum.ofNat 1)
  | none => JsNum.ofNat 1

/-- First pass of the weighted pick: total weight of the valid
(`Number.isFinite(wt) && wt > 0`, here simply positive — a rational is
always finite) weights over the slice's set bits. -/
def totalWeight (tiles : List Variant) (bits : List Nat) : JsNum :=
  bits.foldl
    (fun tot idx => if qLt (JsNum.ofNat 0) (tileWeight tiles idx)
      then qAdd tot (tileWeight tiles idx) else tot)
    (JsNum.ofNat 0)

/-- Second pass: subtract valid weights from the roll until it drops to 0. -/
def weightedPickGo (tiles : List Variant) : JsNum → List Nat → Option Nat
  | _, [] => none
  | r, idx :: rest =>
    if qLt (JsNum.ofNat 0) (tileWeight tiles idx) then
      if qLe (qSub r (tileWeight tiles idx)) (JsNum.ofNat 0) then some idx
      else weightedPickGo tiles (qSub r (tileWeight tiles idx)) rest
    else weightedPickGo tiles r rest

/-- Numerical-edge-case loop: the first set bit of the highest non-zero word
(the source's inner `while` returns on its first iteration). -/
def lastResortGo (domain : List Nat) (cell words : Nat) : List Nat → Int
  | [] => -1
  | w :: rest =>
    let bits := wget domain (cell * words + w)
    if bits ≠ 0 then ((w * 32 + popLowestBitIndex bits : Nat) : Int)
    else lastResortGo domain cell words rest

/-- `pickTileFromDomainWeighted`: weighted inverse-CDF sampling with one
draw; uniform fallback when no positive weight survives; last-resort scan
(reverse word order) if rounding lets the roll run past the last weight. -/
def pickTileFromDomainWeighted (domain : List Nat) (cell words : Nat)
    (tiles : List Variant) (t : Nat) : Int × Nat :=
  let bits := cellBits domain cell words
  let total := totalWeight tiles bits
  if qLe total (JsNum.ofNat 0) then pickTileFromDomain domain cell words t
  else
    let p := rngNext t
    let r : JsNum := qMul ⟨(p.2 : Int), 4294967296⟩ total
    match weightedPickGo tiles r bits with
    | some idx => ((idx : Int), p.1)
    | none => (lastResortGo domain cell words (List.range words).reverse, p.1)

/-! ### The `WfcStepper` engine state -/

/-- `countChar`: occurrences of a character in a string. -/
def countChar (s : String) (c : Char) : Nat :=
  s.data.foldl (fun n ch => if ch = c then n + 1 else n) 0

/-- `toUpperCase`, written as a structural map over the string's characters
(the library's `String.toUpper` is an iterator loop the kernel cannot
evaluate; this map is the same function). -/
def strUpper (s : String) : String := String.mk (s.data.map Char.toUpper)

/-- `buildMaskForMinG`: bitset over variants whose upper-cased `baseId`
contains at least `minG` copies of `G`. -/
def buildMaskForMinG (tiles : List Variant) (words minG : Nat) : List Nat :=
  (List.range tiles.length).foldl
    (fun mask i =>
      if minG ≤ countChar (strUpper (match tiles.get? i with
        | some tl => tl.baseId
        | none => "")) 'G'
      then setBitW mask i else mask)
    (List.replicate words 0)

/-- `neighborIndex`: the grid neighbor of `(x, y)` in direction `d`, `none`
standing for the source's `-1` off-grid sentinel. -/
def neighborIndex (x y w h d : Nat) : Option Nat :=
  if d = 0 then (if 0 < y then some ((y - 1) * w + x) else none)
  else if d = 1 then (if x + 1 < w then some (y * w + (x + 1)) else none)
  else if d = 2 then (if y + 1 < h then some ((y + 1) * w + x) else none)
  else (if 0 < x then some (y * w + (x - 1)) else none)

/-- `unionCompatForCellInto`: OR together the compat rows of every tile
still in the cell's slice; the reusable scratch buffer of the source is
reset to zero on entry, so a fresh zero array is the same value. -/
def unionCompatForCell (domain : List Nat) (cell words : Nat)
    (compatDir : List (List Nat)) : List Nat :=
  (List.range words).foldl
    (fun out w =>
      (bitIndices (wget domain (cell * words + w))).foldl
        (fun out b =>
          (List.range words).foldl
            (fun o k => o.set k (wget o k ||| wget (compatDir.getD (w * 32 + b) []) k))
            out)
        out)
    (List.replicate words 0)

/-- Scan of `findMinEntropyCell` from the random start; `bestCount` is
`Option Nat` with `none` for the initial `Infinity`, `bestCell` is `-1`
until a cell with entropy above 1 is found, and finding entropy exactly 2
breaks out of the scan. -/
def findMinGo (domain : List Nat) (cells words start : Nat) :
    List Nat → Option Nat → Int → Int
  | [], _, bestCell => bestCell
  | i :: is, bestCount, bestCell =>
    let cell := (start + i) % cells
    let c := countDomain domain cell words
    if c ≤ 1 then findMinGo domain cells words start is bestCount bestCell
    else if (match bestCount with | none => true | some bc => c < bc) then
      (if c = 2 then (cell : Int)
       else findMinGo domain cells words start is (some c) (cell : Int))
    else findMinGo domain cells words start is bestCount bestCell

/-- `findMinEntropyCell`: one PRNG draw for the randomized scan start
(`(rng() * cells) | 0 = ⌊u · cells / 2^32⌋`), then the scan.  Returns the
cell (or `-1`) and the advanced PRNG state. -/
def findMinEntropyCell (domain : List Nat) (cells words t : Nat) : Int × Nat :=
  let p := rngNext t
  (findMinGo domain cells words (p.2 * cells / 4294967296) (List.range cells) none (-1),
   p.1)

/-- The `macroGrass` option block of `WfcStepperOptions` (all fields
optional). -/
structure MacroOpts where
  enabled : Option Bool
  continents : Option Nat
  radiusMinFrac : Option JsNum
  radiusMaxFrac : Option JsNum
  coreMinG : Option Nat
  rimMinG : Option Nat
deriving DecidableEq

/-- `WfcStepperOptions`. -/
structure WfcStepperOptions where
  seed : Nat
  allowRotate : Option Bool
  maxRestarts : Option Nat
  macroGrass : Option MacroOpts
deriving DecidableEq

/-- The resolved macro configuration (`Required<...>` in the source). -/
structure MacroCfg where
  enabled : Bool
  continents : Nat
  radiusMinFrac : JsNum
  radiusMaxFrac : JsNum
  coreMinG : Nat
  rimMinG : Nat
deriving DecidableEq

/-- The mutable state of a `WfcStepper`.  The work queue is the source's
array used as a stack (push/pop at the end); it is stored here with the
stack top at the head, so `pop` is `head` and `push` is `cons`. -/
structure Stepper where
  gridW : Nat
  gridH : Nat
  cells : Nat
  tiles : List Variant
  words : Nat
  compat : List (List (List Nat))
  maxRestarts : Nat
  rng : Nat
  attempt : Nat
  domain : List Nat
  queue : List Nat
  inQueue : List Bool
  collapsed : Nat
  macroGrass : Option MacroCfg
  coreGrassMask : Option (List Nat)
  rimGrassMask : Option (List Nat)
deriving DecidableEq

/-- The events `step` emits. -/
inductive WfcEvent where
  | collapse (cell tile : Nat)
  | propagate (cell : Nat)
  | done
  | restart (attempt : Nat)
  | error (message : String)
deriving DecidableEq

/-- `` `WFC failed after ${maxRestarts} restarts.` `` -/
def errorMessage (maxRestarts : Nat) : String :=
  "WFC failed after " ++ toString maxRestarts ++ " restarts."

/-- Deduplicated enqueue. -/
def enqueue (s : Stepper) (cell : Nat) : Stepper :=
  if s.inQueue.getD cell false then s
  else { s with inQueue := s.inQueue.set cell true, queue := cell :: s.queue }

/-- Body of the macro disk double loop for one candidate cell `(x, y)`:
skip cells outside the disk, pick the core mask inside the core radius when
the core mask is non-empty, intersect non-emptyingly, enqueue on change. -/
def macroCellStep (coreMask rimMask : List Nat) (coreAny cx cy r coreR : Nat)
    (s : Stepper) (y x : Nat) : Stepper :=
  let d2 : Int := ((x : Int) - (cx : Int)) ^ 2 + ((y : Int) - (cy : Int)) ^ 2
  if (r : Int) * (r : Int) < d2 then s
  else
    let cell := y * s.gridW + x
    let mask := if d2 ≤ (coreR : Int) * (coreR : Int) ∧ coreAny ≠ 0
      then coreMask else rimMask
    let pr := intersectCellWithMask s.domain cell s.words mask
    if pr.2 then enqueue { s with domain := pr.1 } cell
    else { s with domain := pr.1 }

/-- One macro continent: three PRNG draws pick the centre `(cx, cy)` and the
radius `r`, then the disk's bounding box is scanned.  `Math.floor(r * 0.85)`
is modelled as the rational floor of `r · 85/100` (the double and the
rational round the same way at every realistic radius).  On a grid with a
zero dimension the JS loop bounds are negative and the loop body never runs;
this model assumes `gridW, gridH ≥ 1`, which every constructed stepper in
the claims satisfies. -/
def macroContinent (coreMask rimMask : List Nat) (coreAny rMin rMax : Nat)
    (s : Stepper) : Stepper :=
  let p1 := rngNext s.rng
  let cx := p1.2 * s.gridW / 4294967296
  let p2 := rngNext p1.1
  let cy := p2.2 * s.gridH / 4294967296
  let p3 := rngNext p2.1
  let r := rMin + p3.2 * (rMax - rMin + 1) / 4294967296
  let coreR := max 1 (qFloor (qMul ⟨(r : Int), 1⟩ ⟨85, 100⟩)).toNat
  let x0 := cx - r
  let x1 := min (s.gridW - 1) (cx + r)
  let y0 := cy - r
  let y1 := min (s.gridH - 1) (cy + r)
  (List.range' y0 (y1 + 1 - y0)).foldl
    (fun s y =>
      (List.range' x0 (x1 + 1 - x0)).foldl
        (fun s x => macroCellStep coreMask rimMask coreAny cx cy r coreR s y x) s)
    { s with rng := p3.1 }

/-- `applyMacroGrassBias`: no-op without a macro config or without masks or
when the rim mask is empty (all checked before any PRNG draw); otherwise
seed `max 1 continents` disks.  The source computes `rimAny`/`coreAny` in
one loop; the two OR-folds here read the same masks. -/
def applyMacroGrassBias (s : Stepper) : Stepper :=
  match s.macroGrass with
  | none => s
  | some cfg =>
    match s.coreGrassMask, s.rimGrassMask with
    | some coreMask, some rimMask =>
      if (List.range s.words).foldl (fun a w => a ||| wget rimMask w) 0 = 0 then s
      else
        let coreAny := (List.range s.words).foldl (fun a w => a ||| wget coreMask w) 0
        let minDim := min s.gridW s.gridH
        let rMin := max 2 (qFloor (qMul ⟨(minDim : Int), 1⟩ cfg.radiusMinFrac)).toNat
        let rMax := max (rMin + 1) (qFloor (qMul ⟨(minDim : Int), 1⟩ cfg.radiusMaxFrac)).toNat
        (List.range (max 1 cfg.continents)).foldl
          (fun s _ => macroContinent coreMask rimMask coreAny rMin rMax s) s
    | _, _ => s

/-- `resetDomain`: refill every cell's slice with all-ones, re-mask the
unused high bits, clear the queue, the `inQueue` flags and the collapsed
count, then reapply the macro seeds. -/
def resetDomain (s : Stepper) : Stepper :=
  applyMacroGrassBias
    { s with
      domain := maskUnusedHighBits
        ((List.range s.cells).foldl (fun d c => setAll d c s.words) s.domain)
        s.cells s.words s.tiles.length,
      queue := [],
      inQueue := s.inQueue.map (fun _ => false),
      collapsed := 0 }

/-- The constructor `new WfcStepper(baseTiles, gridW, gridH, opts)`.
`opts.macroGrass?.enabled === false` disables the macro entirely; otherwise
a full config is resolved with the documented defaults (`128·128` and
`64·64` cells are the continent-count thresholds). -/
def mkStepper (baseTiles : List TileDef) (gridW gridH : Nat)
    (opts : WfcStepperOptions) : Stepper :=
  let tiles := buildVariants baseTiles (opts.allowRotate.getD false)
  let words := wordCount tiles.length
  let cells := gridW * gridH
  let cfg : Option MacroCfg :=
    if opts.macroGrass.bind (fun m => m.enabled) = some false then none
    else some
      { enabled := (opts.macroGrass.bind (fun m => m.enabled)).getD true,
        continents := (opts.macroGrass.bind (fun m => m.continents)).getD
          (if 16384 ≤ cells then 4 else if 4096 ≤ cells then 3 else 2),
        radiusMinFrac := (opts.macroGrass.bind (fun m => m.radiusMinFrac)).getD ⟨14, 100⟩,
        radiusMaxFrac := (opts.macroGrass.bind (fun m => m.radiusMaxFrac)).getD ⟨22, 100⟩,
        coreMinG := (opts.macroGrass.bind (fun m => m.coreMinG)).getD 10,
        rimMinG := (opts.macroGrass.bind (fun m => m.rimMinG)).getD 8 }
  resetDomain
    { gridW := gridW, gridH := gridH, cells := cells, tiles := tiles,
      words := words, compat := buildCompat tiles,
      maxRestarts := opts.maxRestarts.getD 40,
      rng := opts.seed % 4294967296, attempt := 0,
      domain := List.replicate (cells * words) 0, queue := [],
      inQueue := List.replicate cells false, collapsed := 0,
      macroGrass := cfg,
      coreGrassMask := match cfg with
        | some c => some (buildMaskForMinG tiles words c.coreMinG)
        | none => none,
      rimGrassMask := match cfg with
        | some c => some (buildMaskForMinG tiles words c.rimMinG)
        | none => none }

/-- `buildResult`: first set bit of every cell (`-1` when empty), coerced
into a `Uint16Array` entry (mod `2^16`). -/
def buildResult (s : Stepper) : List Int :=
  (List.range s.cells).map (fun c => (getSingleIndex s.domain c s.words).emod 65536)

/-! ### `WfcStepper.step` -/

/-- Processing of one direction of a popped cell inside the propagation
drain: intersect the neighbor with the union of the compat rows of the
popped cell's surviving tiles; on a change emit `propagate`; if the
neighbor's slice is now empty, bump the attempt counter and either emit the
terminal `error` (counter above `maxRestarts`) or reset and emit `restart`
— both exit the whole `step` call (the `true` flag);  otherwise enqueue
the neighbor. -/
def processDir (s : Stepper) (ev : List WfcEvent) (cell d : Nat) :
    List WfcEvent × Stepper × Bool :=
  match neighborIndex (cell % s.gridW) (cell / s.gridW) s.gridW s.gridH d with
  | none => (ev, s, false)
  | some nb =>
    let pr := domainAndInPlace s.domain nb s.words
      (unionCompatForCell s.domain cell s.words (s.compat.getD d []))
    if pr.2 then
      if domainIsEmpty pr.1 nb s.words then
        if s.maxRestarts < s.attempt + 1 then
          (ev ++ [WfcEvent.propagate nb, WfcEvent.error (errorMessage s.maxRestarts)],
           { s with domain := pr.1, attempt := s.attempt + 1 }, true)
        else
          (ev ++ [WfcEvent.propagate nb, WfcEvent.restart (s.attempt + 1)],
           resetDomain { s with domain := pr.1, attempt := s.attempt + 1 }, true)
      else
        (ev ++ [WfcEvent.propagate nb], enqueue { s with domain := pr.1 } nb, false)
    else (ev, { s with domain := pr.1 }, false)

/-- The `for (const d of DIRS)` loop, cut short when a direction exits the
step call. -/
def processDirs (s : Stepper) (ev : List WfcEvent) (cell : Nat) :
    List Nat → List WfcEvent × Stepper × Bool
  | [] => (ev, s, false)
  | d :: ds =>
    let r := processDir s ev cell d
    if r.2.2 then r else processDirs r.2.1 r.1 cell ds

/-- The `while (queue.length > 0 && propBudget-- > 0)` drain: pop the stack
top, clear its `inQueue` flag, process the four directions. -/
def propagateLoop (s : Stepper) (ev : List WfcEvent) :
    Nat → List WfcEvent × Stepper × Bool
  | 0 => (ev, s, false)
  | budget + 1 =>
    match s.queue with
    | [] => (ev, s, false)
    | cell :: rest =>
      let r := processDirs
        { s with queue := rest, inQueue := s.inQueue.set cell false } ev cell
        [0, 1, 2, 3]
      if r.2.2 then (r.1, r.2.1, true) else propagateLoop r.2.1 r.1 budget

/-- The `for (let i = 0; i < maxCollapses; i++)` loop of `step`: drain the
queue (bounded by the propagation budget); stop collapsing if the queue is
still non-empty; otherwise select a minimum-entropy cell (emitting `done`
when there is none), pick a tile by weighted sampling, restrict, emit
`collapse`, enqueue.  `pick` returns `-1` only on an empty slice, which the
selection guarantees against; `Int.toNat` is the identity on the real
range. -/
def stepLoop (maxProp : Nat) : Nat → Stepper → List WfcEvent → List WfcEvent × Stepper
  | 0, s, ev => (ev, s)
  | i + 1, s, ev =>
    let r := propagateLoop s ev maxProp
    if r.2.2 then (r.1, r.2.1)
    else if 0 < r.2.1.queue.length then (r.1, r.2.1)
    else
      let s1 := r.2.1
      let fm := findMinEntropyCell s1.domain s1.cells s1.words s1.rng
      if fm.1 = -1 then (r.1 ++ [WfcEvent.done], { s1 with rng := fm.2 })
      else
        let cell := fm.1.toNat
        let pk := pickTileFromDomainWeighted s1.domain cell s1.words s1.tiles fm.2
        let chosen := pk.1.toNat
        let s2 : Stepper :=
          { s1 with
            rng := pk.2
            domain := restrictToTile s1.domain cell s1.words chosen
            collapsed := s1.collapsed + 1 }
        stepLoop maxProp i (enqueue s2 cell) (r.1 ++ [WfcEvent.collapse cell chosen])

/-- `step(maxCollapses, maxPropagations)`. -/
def step (s : Stepper) (maxCollapses maxPropagations : Nat) :
    List WfcEvent × Stepper :=
  stepLoop maxPropagations maxCollapses s []

/-- `stepLoop` instrumented for the event-ordering claim: identical control
flow, additionally recording, for every `collapse` event, the work queue
exactly as it stands when that event is pushed. -/
def stepAuditLoop (maxProp : Nat) :
    Nat → Stepper → List WfcEvent → List (List Nat) →
      List WfcEvent × Stepper × List (List Nat)
  | 0, s, ev, qs => (ev, s, qs)
  | i + 1, s, ev, qs =>
    let r := propagateLoop s ev maxProp
    if r.2.2 then (r.1, r.2.1, qs)
    else if 0 < r.2.1.queue.length then (r.1, r.2.1, qs)
    else
      let s1 := r.2.1
      let fm := findMinEntropyCell s1.domain s1.cells s1.words s1.rng
      if fm.1 = -1 then (r.1 ++ [WfcEvent.done], { s1 with rng := fm.2 }, qs)
      else
        let cell := fm.1.toNat
        let pk := pickTileFromDomainWeighted s1.domain cell s1.words s1.tiles fm.2
        let chosen := pk.1.toNat
        let s2 : Stepper :=
          { s1 with
            rng := pk.2
            domain := restrictToTile s1.domain cell s1.words chosen
            collapsed := s1.collapsed + 1 }
        stepAuditLoop maxProp i (enqueue s2 cell)
          (r.1 ++ [WfcEvent.collapse cell chosen]) (qs ++ [s1.queue])

/-- Instrumented `step` for the event-ordering claim. -/
def stepAudit (s : Stepper) (maxCollapses maxPropagations : Nat) :
    List WfcEvent × Stepper × List (List Nat) :=
  stepAuditLoop maxPropagations maxCollapses s [] []

/-! ### Concrete scenarios for witnesses and counterexamples -/

/-- `macroGrass: { enabled: false }`. -/
def macroOff : MacroOpts :=
  { enabled := some false, continents := none, radiusMinFrac := none,
    radiusMaxFrac := none, coreMinG := none, rimMinG := none }

/-- Two tiles whose vertical edges always match (`"0"`) but whose horizontal
edges never do (`e = "1"` against `w = "2"`), so no tile may sit beside any
tile: any collapse on a 2-by-1 grid empties the neighbor. -/
def tileContraA : TileDef :=
  { id := "A", baseId := "A", file := "a.png",
    edges := ⟨"0", "1", "0", "2"⟩, weight := none }

def tileContraB : TileDef :=
  { id := "B", baseId := "B", file := "b.png",
    edges := ⟨"0", "1", "0", "2"⟩, weight := none }

/-- 2-by-1 contradiction stepper with `maxRestarts = 0` and macro seeding
disabled: the first contradiction exceeds the cap and emits `error`. -/
def sErr : Stepper :=
  mkStepper [tileContraA, tileContraB] 2 1
    { seed := 1, allowRotate := none, maxRestarts := some 0,
      macroGrass := some macroOff }

/-- Same contradiction catalog with the default restart cap (40) and macro
seeding disabled: the contradiction takes the restart branch. -/
def sRestart : Stepper :=
  mkStepper [tileContraA, tileContraB] 2 1
    { seed := 1, allowRotate := none, maxRestarts := none,
      macroGrass := some macroOff }

/-- The contradiction tiles again, but with 10 `G`s in each `baseId` so the
default macro grass masks are full and re-seeding draws from the PRNG. -/
def tileGrassA : TileDef :=
  { id := "A", baseId := "GGGGGGGGGG", file := "a.png",
    edges := ⟨"0", "1", "0", "2"⟩, weight := none }

def tileGrassB : TileDef :=
  { id := "B", baseId := "GGGGGGGGGG", file := "b.png",
    edges := ⟨"0", "1", "0", "2"⟩, weight := none }

/-- 2-by-1 contradiction stepper with macro seeding active. -/
def sGrass : Stepper :=
  mkStepper [tileGrassA, tileGrassB] 2 1
    { seed := 1, allowRotate := none, maxRestarts := none, macroGrass := none }

/-- A single tile with non-empty edges (and no `G` in `baseId`, so macro
seeding touches nothing). -/
def tileUni : TileDef :=
  { id := "A", baseId := "A", file := "a.png",
    edges := ⟨"x", "x", "x", "x"⟩, weight := none }

/-- Default options with only a seed. -/
def optsSeed (seed : Nat) : WfcStepperOptions :=
  { seed := seed, allowRotate := none, maxRestarts := none, macroGrass := none }

/-- Membership of tile index `i` in a cell's domain slice: the word index in
range and the bit set. -/
def memCell (domain : List Nat) (cell words i : Nat) : Bool :=
  decide (i / 32 < words) && (wget domain (cell * words + i / 32)).testBit (i % 32)

/-- The single rotation-0 variant of `tileUni`. -/
def vUni : Variant := { tileUni with rot := 0 }

/-- The resolved default macro config for a grid of `cells` cells. -/
def uniCfg (cells : Nat) : MacroCfg :=
  { enabled := true
    continents := if 16384 ≤ cells then 4 else if 4096 ≤ cells then 3 else 2
    radiusMinFrac := ⟨14, 100⟩
    radiusMaxFrac := ⟨22, 100⟩
    coreMinG := 10
    rimMinG := 8 }

/-- The state `mkStepper [tileUni] W H (optsSeed seed)` reaches right before
`applyMacroGrassBias` runs (which is a no-op here: `tileUni` has no `G` in
its `baseId`, so both grass masks are empty). -/
def sUniPre (W H seed : Nat) : Stepper :=
  { gridW := W, gridH := H, cells := W * H, tiles := [vUni], words := 1,
    compat := buildCompat [vUni], maxRestarts := 40,
    rng := seed % 4294967296, attempt := 0,
    domain := maskUnusedHighBits
      ((List.range (W * H)).foldl (fun d c => setAll d c 1)
        (List.replicate (W * H * 1) 0)) (W * H) 1 1,
    queue := [],
    inQueue := (List.replicate (W * H) false).map (fun _ => false),
    collapsed := 0,
    macroGrass := some (uniCfg (W * H)),
    coreGrassMask := some (buildMaskForMinG [vUni] 1 10),
    rimGrassMask := some (buildMaskForMinG [vUni] 1 8) }

/-- The resolved `cfg` value inside `mkStepper [tileUni] _ _ (optsSeed _)`,
kept in its unreduced source shape. -/
def uniCfgOpt (W H seed : Nat) : Option MacroCfg :=
  if ((optsSeed seed).macroGrass.bind fun m => m.enabled) = some false then none
  else some {
    enabled := ((optsSeed seed).macroGrass.bind fun m => m.enabled).getD true
    continents := ((optsSeed seed).macroGrass.bind fun m => m.continents).getD (if 16384 <= W * H then 4 else if 4096 <= W * H then 3 else 2)
    radiusMinFrac := ((optsSeed seed).macroGrass.bind fun m => m.radiusMinFrac).getD { num := 14, den := 100 }
    radiusMaxFrac := ((optsSeed seed).macroGrass.bind fun m => m.radiusMaxFrac).getD { num := 22, den := 100 }
    coreMinG := ((optsSeed seed).macroGrass.bind fun m => m.coreMinG).getD 10
    rimMinG := ((optsSeed seed).macroGrass.bind fun m => m.rimMinG).getD 8 }

/-- The argument record `mkStepper [tileUni] W H (optsSeed seed)` passes to
`resetDomain`, verbatim (fields in their unreduced source shape). -/
def sVerb (W H seed : Nat) : Stepper := {
    gridW := W
    gridH := H
    cells := W * H
    tiles := buildVariants [tileUni] ((optsSeed seed).allowRotate.getD false)
    words := wordCount (buildVariants [tileUni] ((optsSeed seed).allowRotate.getD false)).length
    compat := buildCompat (buildVariants [tileUni] ((optsSeed seed).allowRotate.getD false))
    maxRestarts := (optsSeed seed).maxRestarts.getD 40
    rng := (optsSeed seed).seed % 4294967296
    attempt := 0
    domain := List.replicate (W * H * wordCount (buildVariants [tileUni] ((optsSeed seed).allowRotate.getD false)).length) 0
    queue := []
    inQueue := List.replicate (W * H) false
    collapsed := 0
    macroGrass := uniCfgOpt W H seed
    coreGrassMask := (match uniCfgOpt W H seed with | some c => some (buildMaskForMinG (buildVariants [tileUni] ((optsSeed seed).allowRotate.getD false)) (wordCount (buildVariants [tileUni] ((optsSeed seed).allowRotate.getD false)).length) c.coreMinG) | none => none)
    rimGrassMask := (match uniCfgOpt W H seed with | some c => some (buildMaskForMinG (buildVariants [tileUni] ((optsSeed seed).allowRotate.getD false)) (wordCount (buildVariants [tileUni] ((optsSeed seed).allowRotate.getD false)).length) c.rimMinG) | none => none) }

/-- The same record with every field evaluated. -/
def s0Uni (W H seed : Nat) : Stepper :=
  { gridW := W, gridH := H, cells := W * H, tiles := [vUni], words := 1,
    compat := buildCompat [vUni], maxRestarts := 40, rng := seed % 4294967296,
    attempt := 0, domain := List.replicate (W * H * 1) 0, queue := [],
    inQueue := List.replicate (W * H) false, collapsed := 0,
    macroGrass := some (uniCfg (W * H)),
    coreGrassMask := some (buildMaskForMinG [vUni] 1 10),
    rimGrassMask := some (buildMaskForMinG [vUni] 1 8) }

theorem wget_nil (i : Nat) : wget [] i = 0 := rfl

theorem wget_set_eq (l : List Nat) (i v : Nat) (h : i < l.length) :
    wget (l.set i v) i = v := by
  simp [wget, List.getD_eq_getElem?_getD, List.getElem?_set_self',
    List.getElem?_eq_getElem h]

theorem wget_set_ne (l : List Nat) (i j v : Nat) (h : i ≠ j) :
    wget (l.set i v) j = wget l j := by
  simp [wget, List.getD_eq_getElem?_getD, List.getElem?_set_ne h]

theorem wget_set_oob (l : List Nat) (i v : Nat) (h : l.length ≤ i) :
    l.set i v = l :=
  List.set_eq_of_length_le h

theorem length_set' (l : List Nat) (i v : Nat) :
    (l.set i v).length = l.length := by simp

theorem wget_lt_length (l : List Nat) (i : Nat) (h : wget l i ≠ 0) :
    i < l.length := by
  by_contra hc
  push_neg at hc
  exact h (by simp [wget, List.getD_eq_getElem?_getD, List.getElem?_eq_none hc])

/-! ### Bit arithmetic for the 32-bit word operations -/
theorem land_two_pow_sub_one (x k : Nat) : x &&& (2 ^ k - 1) = x % 2 ^ k := by
  apply Nat.eq_of_testBit_eq
  intro i
  simp [Nat.testBit_land, Nat.testBit_two_pow_sub_one, Nat.testBit_mod_two_pow,
    Bool.and_comm]

/-- `x &&& 31` is `x % 32` (the JS source masks bit offsets with `& 31`). -/
theorem land_31 (x : Nat) : x &&& 31 = x % 32 := by
  have h := land_two_pow_sub_one x 5
  norm_num at h
  exact h

/-- `x >>> 5` is `x / 32` (the JS source extracts word indices with `>>> 5`). -/
theorem shiftRight_5 (x : Nat) : x >>> 5 = x / 32 := by
  rw [Nat.shiftRight_eq_div_pow]

theorem shiftLeft_one (k : Nat) : 1 <<< k = 2 ^ k := by
  rw [Nat.shiftLeft_eq, one_mul]

/-- Bitwise AND after splitting off the low bit of each operand. -/
theorem two_bit_land (a b i j : Nat) (hi : i ≤ 1) (hj : j ≤ 1) :
    (2 * a + i) &&& (2 * b + j) = 2 * (a &&& b) + i * j := by
  apply Nat.eq_of_testBit_eq
  intro k
  match k with
  | 0 =>
    rw [Nat.testBit_land]
    simp only [Nat.testBit_zero]
    rw [← Bool.decide_and, decide_eq_decide]
    interval_cases i <;> interval_cases j <;> omega
  | k + 1 =>
    have h1 : (2 * a + i) / 2 = a := by omega
    have h2 : (2 * b + j) / 2 = b := by omega
    have h3 : (2 * (a &&& b) + i * j) / 2 = a &&& b := by
      have : i * j ≤ 1 := by interval_cases i <;> interval_cases j <;> omega
      omega
    rw [Nat.testBit_land, Nat.testBit_succ, Nat.testBit_succ, Nat.testBit_succ,
      h1, h2, h3, Nat.testBit_land]

/-- A number and its complement inside `2 ^ M - 1` share no set bit. -/
theorem comp_land_zero : ∀ (M a : Nat), a < 2 ^ M → a &&& (2 ^ M - 1 - a) = 0 := by
  intro M
  induction M with
  | zero => intro a ha; interval_cases a; rfl
  | succ M ih =>
    intro a ha
    have hpow : 2 ^ (M + 1) = 2 * 2 ^ M := by ring
    obtain ⟨b, r, hr, hab⟩ : ∃ b r, r ≤ 1 ∧ a = 2 * b + r :=
      ⟨a / 2, a % 2, by omega, by omega⟩
    subst hab
    have hb : b < 2 ^ M := by omega
    have hc : 2 ^ (M + 1) - 1 - (2 * b + r) = 2 * (2 ^ M - 1 - b) + (1 - r) := by
      omega
    rw [hc, two_bit_land b (2 ^ M - 1 - b) r (1 - r) hr (by omega), ih _ hb]
    have : r * (1 - r) = 0 := by interval_cases r <;> rfl
    omega

/-- `x & -x` on a `W`-bit word (modelled as `x &&& (2 ^ W - x)`) is a power of
two: the lowest set bit of `x`. -/
theorem lowBit_pow : ∀ (W x : Nat), 0 < x → x < 2 ^ W →
    ∃ k, k < W ∧ x &&& (2 ^ W - x) = 2 ^ k ∧ x.testBit k = true := by
  intro W
  induction W with
  | zero => intro x h0 hW; omega
  | succ W ih =>
    intro x h0 hW
    have hpow : 2 ^ (W + 1) = 2 * 2 ^ W := by ring
    obtain ⟨y, r, hr, hxy⟩ : ∃ y r, r ≤ 1 ∧ x = 2 * y + r :=
      ⟨x / 2, x % 2, by omega, by omega⟩
    subst hxy
    rcases (by omega : r = 0 ∨ r = 1) with rfl | rfl
    · -- x even: shift the problem right by one bit
      have hy0 : 0 < y := by omega
      have hyW : y < 2 ^ W := by omega
      obtain ⟨k, hk, hland, hbit⟩ := ih y hy0 hyW
      refine ⟨k + 1, by omega, ?_, ?_⟩
      · have hc : 2 ^ (W + 1) - (2 * y + 0) = 2 * (2 ^ W - y) + 0 := by omega
        rw [hc, two_bit_land y (2 ^ W - y) 0 0 (by omega) (by omega), hland]
        rw [pow_succ]
        ring
      · have : 2 * y + 0 = 2 * y := by omega
        rw [this, Nat.testBit_succ]
        have h2 : 2 * y / 2 = y := by omega
        rw [h2]
        exact hbit
    · -- x odd: the lowest bit is bit 0
      have hy : y < 2 ^ W := by omega
      refine ⟨0, by omega, ?_, ?_⟩
      · have hc : 2 ^ (W + 1) - (2 * y + 1) = 2 * (2 ^ W - 1 - y) + 1 := by omega
        rw [hc, two_bit_land y (2 ^ W - 1 - y) 1 1 (by omega) (by omega),
          comp_land_zero _ _ hy]
        rfl
      · simp [Nat.testBit_zero]
        omega

theorem log2Fuel_two_pow : ∀ (fuel k : Nat), k < fuel → log2Fuel fuel (2 ^ k) = k := by
  intro fuel
  induction fuel with
  | zero => intro k hk; omega
  | succ fuel ih =>
    intro k hk
    match k with
    | 0 => simp [log2Fuel]
    | k + 1 =>
      have h2 : 2 ≤ 2 ^ (k + 1) := by
        calc 2 = 2 ^ 1 := rfl
        _ ≤ 2 ^ (k + 1) := Nat.pow_le_pow_right (by omega) (by omega)
      have hdiv : 2 ^ (k + 1) / 2 = 2 ^ k := by
        rw [pow_succ]
        omega
      rw [log2Fuel, if_pos h2, hdiv, ih k (by omega)]

theorem popLowestBitIndex_spec (x : Nat) (h0 : x ≠ 0) (hx : x < 4294967296) :
    x.testBit (popLowestBitIndex x) = true ∧ popLowestBitIndex x < 32 := by
  have h32 : (4294967296 : Nat) = 2 ^ 32 := by norm_num
  obtain ⟨k, hk, hland, hbit⟩ := lowBit_pow 32 x (by omega) (by omega)
  have : popLowestBitIndex x = k := by
    rw [popLowestBitIndex, h32, hland, log2Fuel_two_pow 32 k hk]
  rw [this]
  exact ⟨hbit, hk⟩

theorem bitIndicesFuel_mem : ∀ (fuel bits i : Nat), bits < 4294967296 →
    i ∈ bitIndicesFuel fuel bits → bits.testBit i = true ∧ i < 32 := by
  intro fuel
  induction fuel with
  | zero => intro bits i _ h; simp [bitIndicesFuel] at h
  | succ fuel ih =>
    intro bits i hlt h
    rw [bitIndicesFuel] at h
    by_cases hb : bits = 0
    · simp [hb] at h
    · simp only [hb, if_false, List.mem_cons] at h
      rcases h with h | h
      · subst h; exact popLowestBitIndex_spec bits hb hlt
      · have hlt' : bits &&& (bits - 1) < 4294967296 :=
          Nat.lt_of_le_of_lt Nat.and_le_left hlt
        obtain ⟨hbit, hi⟩ := ih _ i hlt' h
        refine ⟨?_, hi⟩
        have := Nat.testBit_land bits (bits - 1) i
        rw [hbit] at this
        exact (Bool.and_eq_true _ _).mp this.symm |>.1

theorem bitIndices_mem (bits i : Nat) (hlt : bits < 4294967296)
    (h : i ∈ bitIndices bits) : bits.testBit i = true ∧ i < 32 :=
  bitIndicesFuel_mem 32 bits i hlt h

theorem bitIndices_ne_nil (bits : Nat) (h : bits ≠ 0) : bitIndices bits ≠ [] := by
  simp [bitIndices, bitIndicesFuel, h]

theorem wordCount_ge (n : Nat) : n ≤ 32 * wordCount n := by
  rw [wordCount, Nat.shiftRight_eq_div_pow]
  omega

theorem testBitW_replicate_zero (w i : Nat) :
    testBitW (List.replicate w 0) i = false := by
  rw [testBitW]
  have : wget (List.replicate w 0) (i / 32) = 0 := by
    rw [wget]
    rcases Nat.lt_or_ge (i / 32) w with h | h
    · rw [List.getD_eq_getElem _ _ (by simpa using h)]
      simp
    · have hlen : (List.replicate w (0 : Nat)).length ≤ i / 32 := by simpa using h
      simp [List.getD_eq_getElem?_getD, List.getElem?_eq_none hlen]
  simp [this, Nat.zero_testBit]

theorem length_setBitW (ws : List Nat) (b : Nat) :
    (setBitW ws b).length = ws.length := by
  simp [setBitW]

theorem testBitW_setBitW (ws : List Nat) (b i : Nat) (hb : b < 32 * ws.length) :
    testBitW (setBitW ws b) i = (testBitW ws i || i == b) := by
  have hdiv : b >>> 5 = b / 32 := shiftRight_5 b
  have hbl : b / 32 < ws.length := by omega
  rw [setBitW, testBitW, testBitW, hdiv, land_31, shiftLeft_one]
  by_cases hw : i / 32 = b / 32
  · rw [hw, wget_set_eq _ _ _ hbl, Nat.testBit_lor, Nat.testBit_two_pow]
    by_cases heq : i = b
    · subst heq; simp
    · have hmod : ¬ (b % 32 = i % 32) := by omega
      simp [hmod, heq]
  · rw [wget_set_ne _ _ _ _ (fun h => hw (h.symm))]
    have : (i == b) = false := by
      simp only [beq_eq_false_iff_ne]
      omega
    simp [this]

/-- Bit characterization of the conditional set-bit fold used by
`buildCompat` (and by `buildMaskForMinG`). -/
theorem foldl_setBit_testBit (p : Nat → Bool) :
    ∀ (L : List Nat) (z : List Nat), (∀ x ∈ L, x < 32 * z.length) → ∀ i,
    testBitW (L.foldl (fun row b => if p b then setBitW row b else row) z) i
      = (testBitW z i || (decide (i ∈ L) && p i)) := by
  intro L
  induction L with
  | nil => intro z _ i; simp
  | cons b L ih =>
    intro z hL i
    have hb : b < 32 * z.length := hL b (List.mem_cons_self b L)
    have hstep : ∀ x ∈ L, x < 32 * (if p b then setBitW z b else z).length := by
      intro x hx
      have := hL x (List.mem_cons_of_mem b hx)
      by_cases h : p b <;> simp [h, length_setBitW] <;> omega
    rw [List.foldl_cons, ih _ hstep i]
    by_cases hpb : p b
    · rw [if_pos hpb, testBitW_setBitW _ _ _ hb]
      by_cases hib : i = b
      · subst hib
        simp [hpb]
      · have h1 : (i == b) = false := by simp [hib]
        simp [h1, List.mem_cons, hib]
    · rw [if_neg hpb]
      by_cases hib : i = b
      · subst hib
        simp [hpb]
      · simp [List.mem_cons, hib]

/-- `b ∈ compat[d][a]` (as built by `buildCompat`) iff `b` indexes a variant
and the edge of `a` facing `d` equals the edge of `b` facing `opposite d`. -/
theorem buildCompatRow_testBit (tiles : List Variant) (d a b : Nat) :
    testBitW (buildCompatRow tiles d a) b
      = (decide (b < tiles.length)
          && (edgeAt tiles a d == edgeAt tiles b (opposite d))) := by
  rw [buildCompatRow,
    foldl_setBit_testBit (fun b => edgeAt tiles a d == edgeAt tiles b (opposite d))
      (List.range tiles.length) _ ?_ b]
  · rw [testBitW_replicate_zero]
    simp [List.mem_range]
  · intro x hx
    rw [List.mem_range] at hx
    have := wordCount_ge tiles.length
    simp only [List.length_replicate]
    omega

theorem opposite_opposite (d : Nat) (hd : d < 4) : opposite (opposite d) = d := by
  interval_cases d <;> rfl

theorem opposite_lt (d : Nat) (hd : d < 4) : opposite d < 4 := by
  interval_cases d <;> decide

theorem getD_map_range {α : Type} (n : Nat) (f : Nat → α) (d : Nat) (dflt : α)
    (h : d < n) : ((List.range n).map f).getD d dflt = f d := by
  rw [List.getD_eq_getElem _ _ (by simpa using h)]
  simp

theorem buildCompat_row (tiles : List Variant) (d a : Nat) (hd : d < 4)
    (ha : a < tiles.length) :
    compatRow (buildCompat tiles) d a = buildCompatRow tiles d a := by
  rw [compatRow, buildCompat, getD_map_range 4 _ d [] hd,
    getD_map_range tiles.length _ a [] ha]

/-- C6: the compatibility table is symmetric under the opposite direction. -/
theorem compat_opposite_symm (tiles : List Variant) (a b d : Nat)
    (ha : a < tiles.length) (hb : b < tiles.length) (hd : d < 4) :
    testBitW (compatRow (buildCompat tiles) d a) b
      = testBitW (compatRow (buildCompat tiles) (opposite d) b) a := by
  rw [buildCompat_row tiles d a hd ha,
    buildCompat_row tiles (opposite d) b (opposite_lt d hd) hb,
    buildCompatRow_testBit, buildCompatRow_testBit, opposite_opposite d hd]
  by_cases h : edgeAt tiles a d = edgeAt tiles b (opposite d)
  · simp [h, ha, hb]
  · have h' : ¬ (edgeAt tiles b (opposite d) = edgeAt tiles a d) := fun hh => h hh.symm
    simp [h, h', ha, hb]

/-- Witness for C6 at a concrete catalog, pair and direction. -/
theorem compat_opposite_symm_witness :
    testBitW (compatRow (buildCompat catXY) 1 0) 1
      = testBitW (compatRow (buildCompat catXY) 3 1) 0 :=
  compat_opposite_symm catXY 0 1 1 (by decide) (by decide) (by decide)

/-- C1 counterexample: the claim "b ∈ compat[d][a] iff the edge key sets of
a's side d and b's side opp(d) intersect" is false on `buildCompat`, which
compares the two edge strings for equality: with a single variant whose
edges are all empty, both key sets are empty (so they do not intersect, and
the claim further demands incompatibility outright), yet the empty strings
compare equal and bit 0 of `compat[0][0]` is set. -/
theorem compat_keyset_claim_false :
    ¬ (∀ (tiles : List Variant) (a b d : Nat),
        a < tiles.length → b < tiles.length → d < 4 →
        (testBitW (compatRow (buildCompat tiles) d a) b = true ↔
          specKeysIntersect (specEdgeKeys (edgeAt tiles a d))
            (specEdgeKeys (edgeAt tiles b (opposite d))) = true)) := by
  intro h
  have h0 := (h catBlank 0 0 0 (by decide) (by decide) (by decide)).mp (by decide)
  exact absurd h0 (by decide)

/-- C1 amended: `b ∈ compat[d][a]` iff the two edge strings are equal;
equivalently, iff the spec's key sets intersect or both sides are empty
(for non-empty sides the two readings agree, since the key set of a side
is the singleton of its edge string). -/
theorem compat_edge_equality (tiles : List Variant) (a b d : Nat)
    (ha : a < tiles.length) (hb : b < tiles.length) (hd : d < 4) :
    (testBitW (compatRow (buildCompat tiles) d a) b
        = (edgeAt tiles a d == edgeAt tiles b (opposite d)))
    ∧ (testBitW (compatRow (buildCompat tiles) d a) b
        = (specKeysIntersect (specEdgeKeys (edgeAt tiles a d))
            (specEdgeKeys (edgeAt tiles b (opposite d)))
          || (edgeAt tiles a d == "" && edgeAt tiles b (opposite d) == ""))) := by
  rw [buildCompat_row tiles d a hd ha, buildCompatRow_testBit]
  have hbdec : (decide (b < tiles.length)) = true := by simpa using hb
  rw [hbdec, Bool.true_and]
  refine ⟨rfl, ?_⟩
  by_cases hae : edgeAt tiles a d = "" <;>
    by_cases hbe : edgeAt tiles b (opposite d) = "" <;>
      by_cases heq : edgeAt tiles a d = edgeAt tiles b (opposite d) <;>
        first
          | (simp_all [specEdgeKeys, specKeysIntersect]; done)
          | (rw [beq_eq_false_iff_ne.mpr heq, beq_eq_false_iff_ne.mpr hae,
              beq_eq_false_iff_ne.mpr hbe]
             simp [specEdgeKeys, specKeysIntersect, hae, hbe,
               beq_eq_false_iff_ne.mpr heq]
             exact heq)

/-- Witness for the amended C1 at a concrete catalog. -/
theorem compat_edge_equality_witness :
    (testBitW (compatRow (buildCompat catXY) 0 0) 1
        = (edgeAt catXY 0 0 == edgeAt catXY 1 (opposite 0)))
    ∧ (testBitW (compatRow (buildCompat catXY) 0 0) 1
        = (specKeysIntersect (specEdgeKeys (edgeAt catXY 0 0))
            (specEdgeKeys (edgeAt catXY 1 (opposite 0)))
          || (edgeAt catXY 0 0 == "" && edgeAt catXY 1 (opposite 0) == ""))) :=
  compat_edge_equality catXY 0 1 0 (by decide) (by decide) (by decide)

theorem specRotList_full (t : TileDef) :
    specRotList t [0, 1, 2, 3] t.edges = specRotationsOf t := rfl

theorem specDedupGo_append (key : Variant → String) :
    ∀ (L1 L2 : List Variant) (seen : List String),
    specDedupGo key seen (L1 ++ L2)
      = ((specDedupGo key (specDedupGo key seen L1).1 L2).1,
         (specDedupGo key seen L1).2
           ++ (specDedupGo key (specDedupGo key seen L1).1 L2).2) := by
  intro L1
  induction L1 with
  | nil => intro L2 seen; simp [specDedupGo]
  | cons v vs ih =>
    intro L2 seen
    simp only [List.cons_append, specDedupGo]
    by_cases h : key v ∈ seen
    · simp only [h, if_true]
      exact ih L2 seen
    · simp only [h, if_false]
      rw [show vs.append L2 = vs ++ L2 from rfl, ih L2 (key v :: seen)]
      simp

theorem buildVariantsRotGo_eq (t : TileDef) :
    ∀ (rs : List Nat) (e : Edges) (seen : List String) (out : List Variant),
    buildVariantsRotGo t rs e seen out
      = ((specDedupGo codeKey seen (specRotList t rs e)).1,
         out ++ (specDedupGo codeKey seen (specRotList t rs e)).2) := by
  intro rs
  induction rs with
  | nil => intro e seen out; simp [buildVariantsRotGo, specRotList, specDedupGo]
  | cons r rs ih =>
    intro e seen out
    simp only [buildVariantsRotGo, specRotList, specDedupGo]
    have hkey : codeKey (mkRotVariant t r e) = variantKey t.file e := rfl
    rw [hkey]
    by_cases h : variantKey t.file e ∈ seen
    · simp only [h, if_true]
      exact ih (rotateEdges90CW e) seen out
    · simp only [h, if_false]
      rw [ih (rotateEdges90CW e) (variantKey t.file e :: seen)]
      simp

theorem buildVariantsGo_eq :
    ∀ (ts : List TileDef) (seen : List String) (out : List Variant),
    buildVariantsGo ts seen out
      = ((specDedupGo codeKey seen (specGenVariants ts)).1,
         out ++ (specDedupGo codeKey seen (specGenVariants ts)).2) := by
  intro ts
  induction ts with
  | nil => intro seen out; simp [buildVariantsGo, specGenVariants, specDedupGo]
  | cons t ts ih =>
    intro seen out
    simp only [buildVariantsGo]
    rw [buildVariantsRotGo_eq t [0, 1, 2, 3] t.edges seen out, specRotList_full]
    rw [ih]
    have happ : specGenVariants (t :: ts)
        = specRotationsOf t ++ specGenVariants ts := by
      simp [specGenVariants]
    rw [happ, specDedupGo_append]
    simp

/-- C9 amended: with rotation enabled, `buildVariants` equals first-occurrence
deduplication of the generation sequence keyed by the CONCATENATED string
`file | n ++ e ++ s ++ w` (no separator between edges), earliest occurrence
kept.  Distinct edge tuples with equal concatenations are therefore
conflated. -/
theorem buildVariants_dedup_by_concat (tiles : List TileDef) :
    buildVariants tiles true = (specDedupGo codeKey [] (specGenVariants tiles)).2 := by
  rw [buildVariants]
  simp only [Bool.not_true, Bool.false_eq_true, if_false]
  rw [buildVariantsGo_eq tiles [] []]
  simp

/-- C9 counterexample: deduplication is NOT by the `(file, n, e, s, w)` tuple:
for `tileConcat` the four generated rotations have pairwise distinct edge
tuples, so tuple-keyed deduplication keeps all 4, but the source's
concatenated key conflates them and `buildVariants` keeps only rotation 0. -/
theorem buildVariants_tuple_dedup_false :
    ¬ (∀ tiles : List TileDef,
        buildVariants tiles true = (specDedupTupleGo [] (specGenVariants tiles)).2) := by
  intro h
  exact absurd (h [tileConcat]) (by decide)

theorem imul32_lt (a b : Nat) : imul32 a b < 4294967296 :=
  Nat.mod_lt _ (by norm_num)

theorem xor32_lt (a b : Nat) (ha : a < 4294967296) (hb : b < 4294967296) :
    a ^^^ b < 4294967296 := by
  have h32 : (4294967296 : Nat) = 2 ^ 32 := by norm_num
  rw [h32] at ha hb ⊢
  exact Nat.xor_lt_two_pow ha hb

theorem shiftRight_le_self (a k : Nat) : a >>> k ≤ a := by
  rw [Nat.shiftRight_eq_div_pow]
  exact Nat.div_le_self _ _

theorem rngNext_out_lt (t : Nat) : (rngNext t).2 < 4294967296 := by
  simp only [rngNext]
  refine xor32_lt _ _ (xor32_lt _ _ (imul32_lt _ _) (Nat.mod_lt _ (by norm_num))) ?_
  exact Nat.lt_of_le_of_lt (shiftRight_le_self _ _) (Nat.mod_lt _ (by norm_num))

/-! ### C5: the non-emptying intersect -/
theorem lor_eq_zero_iff (a b : Nat) : a ||| b = 0 ↔ a = 0 ∧ b = 0 := by
  constructor
  · intro h
    constructor <;> apply Nat.eq_of_testBit_eq <;> intro i <;>
      have hh := congrArg (fun x => Nat.testBit x i) h <;>
        simp only [Nat.testBit_lor, Nat.zero_testBit, Bool.or_eq_false_iff] at hh <;>
          simp [hh.1, hh.2, Nat.zero_testBit]
  · rintro ⟨rfl, rfl⟩; rfl

/-- The `any |= domain[base+w] & mask[w]` preview loop is zero iff every
word-wise intersection over the scanned indices is zero. -/
theorem orFold_eq_zero_iff (f : Nat → Nat) :
    ∀ (L : List Nat) (a : Nat),
    (L.foldl (fun acc w => acc ||| f w) a = 0 ↔ a = 0 ∧ ∀ w ∈ L, f w = 0) := by
  intro L
  induction L with
  | nil => intro a; simp
  | cons w L ih =>
    intro a
    rw [List.foldl_cons, ih (a ||| f w), lor_eq_zero_iff]
    constructor
    · rintro ⟨⟨ha, hw⟩, hrest⟩
      exact ⟨ha, by intro x hx; rcases List.mem_cons.mp hx with rfl | hx
                    exacts [hw, hrest x hx]⟩
    · rintro ⟨ha, hall⟩
      exact ⟨⟨ha, hall w (List.mem_cons_self w L)⟩,
        fun x hx => hall x (List.mem_cons_of_mem w hx)⟩

theorem maskStep_wget (mask : List Nat) (base : Nat) (dc : List Nat × Bool)
    (w j : Nat) :
    wget (maskStep mask base dc w).1 j
      = if j = base + w then wget dc.1 j &&& wget mask w else wget dc.1 j := by
  rw [maskStep]
  by_cases hch : wget dc.1 (base + w) &&& wget mask w ≠ wget dc.1 (base + w)
  · rw [if_pos hch]
    by_cases hj : j = base + w
    · subst hj
      have hin : base + w < dc.1.length := by
        by_contra hc
        push_neg at hc
        have h0 : wget dc.1 (base + w) = 0 := by
          by_contra h0
          exact absurd (wget_lt_length _ _ h0) (by omega)
        rw [h0] at hch
        exact hch (by simp)
      simp only [if_pos rfl]
      exact wget_set_eq _ _ _ hin
    · rw [wget_set_ne _ _ _ _ (fun hh => hj hh.symm), if_neg hj]
  · rw [if_neg hch]
    push_neg at hch
    by_cases hj : j = base + w
    · subst hj
      rw [if_pos rfl, hch]
    · rw [if_neg hj]

theorem maskStep_length (mask : List Nat) (base : Nat) (dc : List Nat × Bool)
    (w : Nat) : (maskStep mask base dc w).1.length = dc.1.length := by
  rw [maskStep]
  by_cases hch : wget dc.1 (base + w) &&& wget mask w ≠ wget dc.1 (base + w) <;>
    simp [hch]

/-- Per-position characterization of the word-wise AND loop shared by
`domainAndInPlace` and `intersectCellWithMask`: scanned positions hold the
intersection, all others are untouched, whatever the change flag says. -/
theorem maskFold_wget (mask : List Nat) (base : Nat) :
    ∀ (L : List Nat) (dc : List Nat × Bool) (j : Nat),
    wget ((L.foldl (maskStep mask base) dc).1) j
      = if ∃ w ∈ L, j = base + w
        then wget dc.1 j &&& wget mask (j - base)
        else wget dc.1 j := by
  intro L
  induction L with
  | nil => intro dc j; simp
  | cons w L ih =>
    intro dc j
    rw [List.foldl_cons, ih _ j]
    by_cases hmem : ∃ w' ∈ L, j = base + w'
    · have hwm : ∃ x ∈ w :: L, j = base + x := by
        obtain ⟨w', hw', hj⟩ := hmem
        exact ⟨w', List.mem_cons_of_mem w hw', hj⟩
      rw [if_pos hmem, if_pos hwm, maskStep_wget]
      by_cases hj : j = base + w
      · rw [if_pos hj]
        have hsub : j - base = w := by omega
        rw [hsub, Nat.and_assoc, Nat.and_self]
      · rw [if_neg hj]
    · rw [if_neg hmem]
      by_cases hj : j = base + w
      · have hwm : ∃ x ∈ w :: L, j = base + x := ⟨w, List.mem_cons_self w L, hj⟩
        rw [if_pos hwm, maskStep_wget, if_pos hj]
        have hsub : j - base = w := by omega
        rw [hsub]
      · have hwm : ¬ ∃ x ∈ w :: L, j = base + x := by
          rintro ⟨x, hx, hjx⟩
          rcases List.mem_cons.mp hx with rfl | hx
          · exact hj hjx
          · exact hmem ⟨x, hx, hjx⟩
        rw [if_neg hwm, maskStep_wget, if_neg hj]

theorem maskFold_length (mask : List Nat) (base : Nat) :
    ∀ (L : List Nat) (dc : List Nat × Bool),
    ((L.foldl (maskStep mask base) dc).1).length = dc.1.length := by
  intro L
  induction L with
  | nil => intro dc; rfl
  | cons w L ih =>
    intro dc
    rw [List.foldl_cons, ih, maskStep_length]

theorem domainAndInPlace_wget (domain mask : List Nat) (cell words j : Nat) :
    wget (domainAndInPlace domain cell words mask).1 j
      = if ∃ w ∈ List.range words, j = cell * words + w
        then wget domain j &&& wget mask (j - cell * words)
        else wget domain j := by
  rw [domainAndInPlace, maskFold_wget]

/-- `domainIsEmpty` is `false` iff some scanned word is non-zero. -/
theorem domainIsEmpty_eq_false_iff (domain : List Nat) (cell words : Nat) :
    domainIsEmpty domain cell words = false
      ↔ ∃ w, w < words ∧ wget domain (cell * words + w) ≠ 0 := by
  rw [domainIsEmpty, ← Bool.not_eq_true, List.all_eq_true]
  push_neg
  constructor
  · rintro ⟨w, hw, hne⟩
    rw [List.mem_range] at hw
    refine ⟨w, hw, ?_⟩
    simpa using hne
  · rintro ⟨w, hw, hne⟩
    refine ⟨w, List.mem_range.mpr hw, ?_⟩
    simpa using hne

/-- Slices of distinct cells occupy disjoint index ranges. -/
theorem slice_ne (c cell w w' words : Nat) (hw : w < words) (hw' : w' < words)
    (hc : c ≠ cell) : c * words + w ≠ cell * words + w' := by
  intro h
  rcases Nat.lt_or_ge c cell with hlt | hge
  · have e1 : (c + 1) * words = c * words + words := by ring
    have e2 : (c + 1) * words ≤ cell * words :=
      Nat.mul_le_mul_right words (by omega : c + 1 ≤ cell)
    omega
  · have e1 : (cell + 1) * words = cell * words + words := by ring
    have e2 : (cell + 1) * words ≤ c * words :=
      Nat.mul_le_mul_right words (by omega : cell + 1 ≤ c)
    omega

/-- C5: `intersectCellWithMask` aborts without mutation (and reports no
change) when the intersection of the cell's slice with the mask would be
empty; otherwise it replaces the slice by that non-empty intersection; and
for EVERY cell (the seeded one and all others) it never turns a non-empty
slice into an empty one — the guarantee the macro seeder relies on. -/
theorem intersectCellWithMask_props (domain mask : List Nat) (cell words : Nat) :
    ((∀ w, w < words → wget domain (cell * words + w) &&& wget mask w = 0) →
      intersectCellWithMask domain cell words mask = (domain, false))
    ∧ ((∃ w, w < words ∧ wget domain (cell * words + w) &&& wget mask w ≠ 0) →
        (∀ w, w < words →
          wget (intersectCellWithMask domain cell words mask).1 (cell * words + w)
            = wget domain (cell * words + w) &&& wget mask w)
        ∧ domainIsEmpty (intersectCellWithMask domain cell words mask).1 cell words
            = false)
    ∧ (∀ c', domainIsEmpty domain c' words = false →
        domainIsEmpty (intersectCellWithMask domain cell words mask).1 c' words
          = false) := by
  refine ⟨?_, ?_, ?_⟩
  · intro hz
    rw [intersectCellWithMask, if_pos]
    rw [orFold_eq_zero_iff]
    refine ⟨rfl, ?_⟩
    intro w hw
    exact hz w (List.mem_range.mp hw)
  · intro ⟨w0, hw0, hne0⟩
    have hnz : ¬ ((List.range words).foldl
        (fun a w => a ||| (wget domain (cell * words + w) &&& wget mask w)) 0 = 0) := by
      rw [orFold_eq_zero_iff]
      rintro ⟨-, hall⟩
      exact hne0 (hall w0 (List.mem_range.mpr hw0))
    rw [intersectCellWithMask, if_neg hnz]
    have hval : ∀ w, w < words →
        wget (domainAndInPlace domain cell words mask).1 (cell * words + w)
          = wget domain (cell * words + w) &&& wget mask w := by
      intro w hw
      rw [domainAndInPlace_wget, if_pos ⟨w, List.mem_range.mpr hw, rfl⟩]
      have : cell * words + w - cell * words = w := by omega
      rw [this]
    refine ⟨hval, ?_⟩
    rw [domainIsEmpty_eq_false_iff]
    exact ⟨w0, hw0, by rw [hval w0 hw0]; exact hne0⟩
  · intro c' hne
    rw [intersectCellWithMask]
    by_cases hz : (List.range words).foldl
        (fun a w => a ||| (wget domain (cell * words + w) &&& wget mask w)) 0 = 0
    · rw [if_pos hz]
      exact hne
    · rw [if_neg hz]
      by_cases hc : c' = cell
      · subst hc
        have hex : ∃ w ∈ List.range words,
            wget domain (c' * words + w) &&& wget mask w ≠ 0 := by
          by_contra hall
          push_neg at hall
          exact hz ((orFold_eq_zero_iff _ _ _).mpr ⟨rfl, hall⟩)
        obtain ⟨w, hwmem, hne0⟩ := hex
        rw [domainIsEmpty_eq_false_iff]
        refine ⟨w, List.mem_range.mp hwmem, ?_⟩
        rw [domainAndInPlace_wget, if_pos ⟨w, hwmem, rfl⟩]
        have hsub : c' * words + w - c' * words = w := by omega
        rw [hsub]
        exact hne0
      · obtain ⟨w, hw, hnew⟩ := (domainIsEmpty_eq_false_iff _ _ _).mp hne
        rw [domainIsEmpty_eq_false_iff]
        refine ⟨w, hw, ?_⟩
        rw [domainAndInPlace_wget, if_neg ?_]
        · exact hnew
        · rintro ⟨w', hw', heq⟩
          exact slice_ne c' cell w w' words hw (List.mem_range.mp hw') hc heq

theorem stepAuditLoop_spec (m : Nat) :
    ∀ (n : Nat) (s : Stepper) (ev : List WfcEvent) (qs : List (List Nat)),
    ((stepAuditLoop m n s ev qs).1 = (stepLoop m n s ev).1
      ∧ (stepAuditLoop m n s ev qs).2.1 = (stepLoop m n s ev).2)
    ∧ ((∀ q ∈ qs, q = []) → ∀ q ∈ (stepAuditLoop m n s ev qs).2.2, q = []) := by
  intro n
  induction n with
  | zero =>
    intro s ev qs
    exact ⟨⟨rfl, rfl⟩, fun h => h⟩
  | succ i ih =>
    intro s ev qs
    rw [stepAuditLoop, stepLoop]
    by_cases h1 : (propagateLoop s ev m).2.2
    · simp only [h1, if_true]
      exact ⟨⟨by trivial, by trivial⟩, fun h => h⟩
    · simp only [h1, if_false]
      by_cases h2 : 0 < (propagateLoop s ev m).2.1.queue.length
      · simp only [h2, if_true]
        exact ⟨⟨by trivial, by trivial⟩, fun h => h⟩
      · simp only [h2, if_false]
        by_cases h3 : (findMinEntropyCell (propagateLoop s ev m).2.1.domain
            (propagateLoop s ev m).2.1.cells (propagateLoop s ev m).2.1.words
            (propagateLoop s ev m).2.1.rng).1 = -1
        · simp only [h3, if_true]
          exact ⟨⟨by trivial, by trivial⟩, fun h => h⟩
        · simp only [h3, if_false]
          have hqnil : (propagateLoop s ev m).2.1.queue = [] := by
            rcases hq : (propagateLoop s ev m).2.1.queue with _ | ⟨c, cs⟩
            · rfl
            · rw [hq] at h2
              simp at h2
          refine ⟨(ih _ _ _).1, ?_⟩
          intro hqs
          refine (ih _ _ _).2 ?_
          intro q hq
          rcases List.mem_append.mp hq with hmem | hmem
          · exact hqs q hmem
          · rw [List.mem_singleton.mp hmem, hqnil]

/-- C8: within one `step` call, every `collapse` event is pushed at a moment
when the propagation queue is empty (the drain triggered by the previous
collapse has fully completed): the instrumented `stepAudit` emits exactly
the events and state of `step`, and every recorded queue snapshot taken at
a `collapse` emission is the empty queue. -/
theorem step_collapse_queue_empty (s : Stepper) (n m : Nat) :
    ((stepAudit s n m).1 = (step s n m).1
      ∧ (stepAudit s n m).2.1 = (step s n m).2)
    ∧ ∀ q ∈ (stepAudit s n m).2.2, q = [] := by
  refine ⟨(stepAuditLoop_spec m n s [] []).1, ?_⟩
  exact (stepAuditLoop_spec m n s [] []).2 (by intro q h; simp at h)

/-- C3: when a propagation step empties a neighbor's domain, the attempt
counter is bumped; above `maxRestarts` the terminal `error` is emitted and
the step call exits; otherwise every cell's domain is refilled with the
all-ones mask and re-masked, the queue, `inQueue` flags and collapsed count
are cleared, the macro seeds are reapplied, `restart{attempt}` is emitted,
and the step call exits (the final `true` makes every enclosing loop of
`step` return immediately). -/
theorem processDir_contradiction (s : Stepper) (ev : List WfcEvent) (cell d nb : Nat)
    (hnb : neighborIndex (cell % s.gridW) (cell / s.gridW) s.gridW s.gridH d = some nb)
    (hch : (domainAndInPlace s.domain nb s.words
      (unionCompatForCell s.domain cell s.words (s.compat.getD d []))).2 = true)
    (hemp : domainIsEmpty (domainAndInPlace s.domain nb s.words
      (unionCompatForCell s.domain cell s.words (s.compat.getD d []))).1 nb s.words
      = true) :
    processDir s ev cell d =
      if s.maxRestarts < s.attempt + 1 then
        (ev ++ [WfcEvent.propagate nb, WfcEvent.error (errorMessage s.maxRestarts)],
         { s with
           domain := (domainAndInPlace s.domain nb s.words
             (unionCompatForCell s.domain cell s.words (s.compat.getD d []))).1
           attempt := s.attempt + 1 },
         true)
      else
        (ev ++ [WfcEvent.propagate nb, WfcEvent.restart (s.attempt + 1)],
         applyMacroGrassBias
           { s with
             attempt := s.attempt + 1
             domain := maskUnusedHighBits
               ((List.range s.cells).foldl (fun dd c => setAll dd c s.words)
                 (domainAndInPlace s.domain nb s.words
                   (unionCompatForCell s.domain cell s.words (s.compat.getD d []))).1)
               s.cells s.words s.tiles.length
             queue := []
             inQueue := s.inQueue.map (fun _ => false)
             collapsed := 0 },
         true) := by
  simp only [processDir, hnb]
  rw [hch, hemp]
  all_goals simp only [if_true, resetDomain]

/-- Witness for C3: the error branch at the concrete 2-by-1 contradiction
stepper with `maxRestarts = 0`. -/
theorem processDir_contradiction_witness :
    processDir sErr [] 0 1
      = ([WfcEvent.propagate 1, WfcEvent.error (errorMessage 0)],
         { sErr with
           domain := (domainAndInPlace sErr.domain 1 sErr.words
             (unionCompatForCell sErr.domain 0 sErr.words (sErr.compat.getD 1 []))).1
           attempt := 1 },
         true) := by
  have h := processDir_contradiction sErr [] 0 1 1 (by rfl) (by rfl) (by rfl)
  rw [h]
  rfl

/-- When macro seeding is inactive — no config, a missing mask, or an empty
rim mask — `applyMacroGrassBias` returns the state untouched before any
PRNG draw. -/
theorem applyMacroGrassBias_inactive (s : Stepper)
    (h : s.macroGrass = none ∨ s.coreGrassMask = none ∨ s.rimGrassMask = none ∨
      (List.range s.words).foldl (fun a w => a ||| wget (s.rimGrassMask.getD []) w) 0
        = 0) :
    applyMacroGrassBias s = s := by
  rw [applyMacroGrassBias]
  rcases hm : s.macroGrass with _ | cfg
  · rfl
  · rcases hcm : s.coreGrassMask with _ | core
    · rfl
    · rcases hrm : s.rimGrassMask with _ | rim
      · rfl
      · rcases h with h | h | h | h
        · rw [hm] at h; cases h
        · rw [hcm] at h; cases h
        · rw [hrm] at h; cases h
        · rw [hrm] at h
          simp only [Option.getD_some] at h
          simp [h]

/-- C7 amended: the restart path never reassigns the PRNG; when macro
seeding is inactive the PRNG state after the reset equals the state
immediately before the contradiction was detected (when seeding is active
the state advances only by the draws re-seeding consumes — see the
counterexample — but it is never reset to a seed). -/
theorem processDir_restart_rng (s : Stepper) (ev : List WfcEvent) (cell d nb : Nat)
    (hnb : neighborIndex (cell % s.gridW) (cell / s.gridW) s.gridW s.gridH d = some nb)
    (hch : (domainAndInPlace s.domain nb s.words
      (unionCompatForCell s.domain cell s.words (s.compat.getD d []))).2 = true)
    (hemp : domainIsEmpty (domainAndInPlace s.domain nb s.words
      (unionCompatForCell s.domain cell s.words (s.compat.getD d []))).1 nb s.words
      = true)
    (hle : s.attempt + 1 ≤ s.maxRestarts)
    (hquiet : s.macroGrass = none ∨ s.coreGrassMask = none ∨ s.rimGrassMask = none ∨
      (List.range s.words).foldl (fun a w => a ||| wget (s.rimGrassMask.getD []) w) 0
        = 0) :
    (processDir s ev cell d).2.1.rng = s.rng := by
  rw [processDir_contradiction s ev cell d nb hnb hch hemp, if_neg (by omega)]
  rw [applyMacroGrassBias_inactive _ (by simpa using hquiet)]

/-- Witness for the amended C7: at the macro-inactive 2-by-1 contradiction
stepper the PRNG is exactly preserved across the restart. -/
theorem processDir_restart_rng_witness :
    (processDir sRestart [] 0 1).2.1.rng = sRestart.rng :=
  processDir_restart_rng sRestart [] 0 1 1 (by rfl) (by rfl) (by rfl) (by decide)
    (Or.inl (by rfl))

/-- C7 counterexample: with macro seeding active (full grass masks), the
reset's re-seeding draws from the PRNG, so the PRNG state right after the
restart differs from the state right before the contradiction was detected
— the claim's equality of PRNG states is false. -/
theorem restart_rng_equal_claim_false :
    ¬ (∀ (s : Stepper) (ev : List WfcEvent) (cell d nb : Nat),
        neighborIndex (cell % s.gridW) (cell / s.gridW) s.gridW s.gridH d = some nb →
        (domainAndInPlace s.domain nb s.words
          (unionCompatForCell s.domain cell s.words (s.compat.getD d []))).2 = true →
        domainIsEmpty (domainAndInPlace s.domain nb s.words
          (unionCompatForCell s.domain cell s.words (s.compat.getD d []))).1 nb s.words
          = true →
        s.attempt + 1 ≤ s.maxRestarts →
        (processDir s ev cell d).2.1.rng = s.rng) := by
  intro h
  have hG := h sGrass [] 0 1 1 (by rfl) (by rfl) (by rfl) (by decide)
  exact absurd hG (by decide)

/-- C4 counterexample: after a `step` call that emitted `error`, the next
`step` call on the same stepper is NOT a no-op — on the 2-by-1
contradiction stepper (restart cap 0) the follow-up call `step(10, 10)`
returns `[done]` (not the empty list) and advances the PRNG.  The source
keeps no terminal flag, so the post-error state simply steps on. -/
theorem step_after_error_claim_false :
    WfcEvent.error (errorMessage 0) ∈ (step sErr 2 10).1
    ∧ (step (step sErr 2 10).2 10 10).1 = [WfcEvent.done]
    ∧ (step (step sErr 2 10).2 10 10).2.rng ≠ (step sErr 2 10).2.rng := by
  refine ⟨by decide, by decide, by decide⟩

/-- C4 amended: the engine has no terminal error state; in the concrete
post-error state the follow-up `step(10, 10)` call runs the normal
selection, finds no cell with entropy above 1 (one cell is collapsed, the
other empty), emits `done`, and mutates exactly the PRNG (one draw made by
`findMinEntropyCell`). -/
theorem step_after_error_not_latched :
    (step (step sErr 2 10).2 10 10).1 = [WfcEvent.done]
    ∧ (step (step sErr 2 10).2 10 10).2
      = { (step sErr 2 10).2 with rng := (rngNext (step sErr 2 10).2.rng).1 } := by
  refine ⟨by decide, by decide⟩

theorem foldAppend_eq_flatMap {α β : Type} (f : α → List β) :
    ∀ (L : List α) (acc : List β),
    L.foldl (fun opts w => opts ++ f w) acc = acc ++ L.flatMap f := by
  intro L
  induction L with
  | nil => intro acc; simp
  | cons w L ih =>
    intro acc
    rw [List.foldl_cons, ih (acc ++ f w)]
    simp

theorem cellBits_mem (domain : List Nat) (cell words : Nat)
    (hw : ∀ w, w < words → wget domain (cell * words + w) < 4294967296) :
    ∀ i ∈ cellBits domain cell words, memCell domain cell words i = true := by
  intro i hi
  rw [cellBits, foldAppend_eq_flatMap] at hi
  simp only [List.nil_append, List.mem_flatMap, List.mem_map, List.mem_range] at hi
  obtain ⟨w, hwlt, b, hb, rfl⟩ := hi
  obtain ⟨hbit, hb32⟩ := bitIndices_mem _ _ (hw w hwlt) hb
  have hdiv : (w * 32 + b) / 32 = w := by omega
  have hmod : (w * 32 + b) % 32 = b := by omega
  rw [memCell, hdiv, hmod, hbit]
  simp [hwlt]

theorem cellBits_ne_nil (domain : List Nat) (cell words : Nat)
    (hne : domainIsEmpty domain cell words = false) :
    cellBits domain cell words ≠ [] := by
  obtain ⟨w, hwlt, hnz⟩ := (domainIsEmpty_eq_false_iff _ _ _).mp hne
  rw [cellBits, foldAppend_eq_flatMap]
  intro hcon
  have : (w * 32 + popLowestBitIndex (wget domain (cell * words + w)))
      ∈ ([] : List Nat) := by
    rw [← hcon]
    simp only [List.nil_append, List.mem_flatMap]
    refine ⟨w, List.mem_range.mpr hwlt, ?_⟩
    simp only [List.mem_map]
    refine ⟨popLowestBitIndex (wget domain (cell * words + w)), ?_, rfl⟩
    rw [bitIndices, bitIndicesFuel]
    simp [hnz]
  simp at this

theorem weightedPickGo_mem (tiles : List Variant) :
    ∀ (bits : List Nat) (r : JsNum) (idx : Nat),
    weightedPickGo tiles r bits = some idx → idx ∈ bits := by
  intro bits
  induction bits with
  | nil => intro r idx h; simp [weightedPickGo] at h
  | cons b bs ih =>
    intro r idx h
    rw [weightedPickGo] at h
    by_cases h1 : qLt (JsNum.ofNat 0) (tileWeight tiles b) = true
    · rw [if_pos h1] at h
      by_cases h2 : qLe (qSub r (tileWeight tiles b)) (JsNum.ofNat 0) = true
      · rw [if_pos h2] at h
        cases Option.some_inj.mp h
        exact List.mem_cons_self b bs
      · rw [if_neg h2] at h
        exact List.mem_cons_of_mem b (ih _ idx h)
    · rw [if_neg h1] at h
      exact List.mem_cons_of_mem b (ih _ idx h)

theorem lastResortGo_mem (domain : List Nat) (cell words : Nat)
    (hw : ∀ w, w < words → wget domain (cell * words + w) < 4294967296) :
    ∀ (L : List Nat), (∀ w ∈ L, w < words) →
    (∃ w ∈ L, wget domain (cell * words + w) ≠ 0) →
    ∃ k : Nat, lastResortGo domain cell words L = (k : Int)
      ∧ memCell domain cell words k = true := by
  intro L
  induction L with
  | nil => rintro _ ⟨w, hmem, -⟩; simp at hmem
  | cons w ws ih =>
    rintro hb hex
    rw [lastResortGo]
    by_cases hz : wget domain (cell * words + w) ≠ 0
    · rw [if_pos hz]
      have hwlt : w < words := hb w (List.mem_cons_self w ws)
      obtain ⟨hbit, hlt32⟩ :=
        popLowestBitIndex_spec (wget domain (cell * words + w)) hz (hw w hwlt)
      refine ⟨w * 32 + popLowestBitIndex (wget domain (cell * words + w)), rfl, ?_⟩
      have hdiv : (w * 32 + popLowestBitIndex (wget domain (cell * words + w))) / 32 = w := by
        omega
      have hmod : (w * 32 + popLowestBitIndex (wget domain (cell * words + w))) % 32
          = popLowestBitIndex (wget domain (cell * words + w)) := by omega
      rw [memCell, hdiv, hmod, hbit]
      simp [hwlt]
    · rw [if_neg hz]
      push_neg at hz
      refine ih (fun x hx => hb x (List.mem_cons_of_mem w hx)) ?_
      obtain ⟨x, hxmem, hxnz⟩ := hex
      rcases List.mem_cons.mp hxmem with rfl | hxmem
      · exact absurd hz hxnz
      · exact ⟨x, hxmem, hxnz⟩

theorem foldSet_const_length (v base : Nat) :
    ∀ (L : List Nat) (d : List Nat),
    (L.foldl (fun d w => d.set (base + w) v) d).length = d.length := by
  intro L
  induction L with
  | nil => intro d; rfl
  | cons w L ih =>
    intro d
    rw [List.foldl_cons, ih]
    simp

theorem foldSet_const_wget (v base : Nat) :
    ∀ (L : List Nat) (d : List Nat) (j : Nat),
    wget (L.foldl (fun d w => d.set (base + w) v) d) j
      = if (∃ w ∈ L, j = base + w) ∧ j < d.length then v else wget d j := by
  intro L
  induction L with
  | nil => intro d j; simp
  | cons w L ih =>
    intro d j
    rw [List.foldl_cons, ih]
    have hlen : (d.set (base + w) v).length = d.length := by simp
    rw [hlen]
    by_cases hcl : (∃ w' ∈ L, j = base + w') ∧ j < d.length
    · obtain ⟨⟨w', hw', hjw⟩, hjl⟩ := hcl
      rw [if_pos ⟨⟨w', hw', hjw⟩, hjl⟩,
        if_pos ⟨⟨w', List.mem_cons_of_mem w hw', hjw⟩, hjl⟩]
    · rw [if_neg hcl]
      by_cases hj : j = base + w
      · subst hj
        by_cases hin : base + w < d.length
        · rw [wget_set_eq _ _ _ hin,
            if_pos ⟨⟨w, List.mem_cons_self w L, rfl⟩, hin⟩]
        · rw [wget_set_oob _ _ _ (by omega), if_neg (fun hc => hin hc.2)]
      · rw [wget_set_ne _ _ _ _ (fun hh => hj hh.symm)]
        have hneg : ¬ ((∃ x ∈ w :: L, j = base + x) ∧ j < d.length) := by
          rintro ⟨⟨x, hx, hjx⟩, hjlen⟩
          rcases List.mem_cons.mp hx with rfl | hx
          · exact hj hjx
          · exact hcl ⟨⟨x, hx, hjx⟩, hjlen⟩
        rw [if_neg hneg]

/-- After `restrictToTile` with a member index `k`, the cell's slice holds
exactly `{k}`. -/
theorem restrictToTile_memCell (domain : List Nat) (cell words k : Nat)
    (hk : memCell domain cell words k = true) :
    ∀ i, memCell (restrictToTile domain cell words k) cell words i = (i == k) := by
  intro i
  obtain ⟨hkw, hkbit⟩ := Bool.and_eq_true _ _ |>.mp hk
  rw [decide_eq_true_eq] at hkw
  have hknz : wget domain (cell * words + k / 32) ≠ 0 := by
    intro h0
    rw [h0] at hkbit
    simp [Nat.zero_testBit] at hkbit
  have hklen : cell * words + k / 32 < domain.length := wget_lt_length _ _ hknz
  have hzlen : ((List.range words).foldl
      (fun d w => d.set (cell * words + w) 0) domain).length = domain.length :=
    foldSet_const_length 0 (cell * words) (List.range words) domain
  rw [restrictToTile, shiftRight_5, land_31, shiftLeft_one]
  by_cases hiw : i / 32 < words
  · by_cases heq : i / 32 = k / 32
    · have hpos : wget (((List.range words).foldl
          (fun d w => d.set (cell * words + w) 0) domain).set
            (cell * words + k / 32) (2 ^ (k % 32))) (cell * words + i / 32)
          = 2 ^ (k % 32) := by
        rw [heq]
        exact wget_set_eq _ _ _ (by rw [hzlen]; exact hklen)
      rw [memCell, hpos, Nat.testBit_two_pow]
      by_cases him : i % 32 = k % 32
      · have : i = k := by omega
        subst this
        simp [hiw, him]
      · have him' : ¬ (k % 32 = i % 32) := fun hh => him hh.symm
        have hik : ¬ (i = k) := by omega
        simp [him', beq_eq_false_iff_ne.mpr hik]
    · have hne : cell * words + k / 32 ≠ cell * words + i / 32 := by omega
      rw [memCell, wget_set_ne _ _ _ _ hne, foldSet_const_wget]
      have : i ≠ k := by omega
      by_cases hin : cell * words + i / 32 < domain.length
      · rw [if_pos ⟨⟨i / 32, List.mem_range.mpr hiw, rfl⟩, hin⟩]
        simp [Nat.zero_testBit, this]
      · rw [if_neg (fun hc => hin hc.2)]
        have h0 : wget domain (cell * words + i / 32) = 0 := by
          by_contra h0
          exact hin (wget_lt_length _ _ h0)
        simp [h0, Nat.zero_testBit, this]
  · rw [memCell]
    have h1 : decide (i / 32 < words) = false := by simp [hiw]
    have h2 : (i == k) = false := by
      simp only [beq_eq_false_iff_ne]
      omega
    simp [h1, h2]

/-- C10: with a non-empty cell slice of 32-bit words, the weighted pick and
the uniform fallback both return a member of the slice, and restricting the
cell to any member replaces the slice by exactly that singleton (hence a
subset of its previous value). -/
theorem pick_membership (domain : List Nat) (cell words : Nat)
    (tiles : List Variant) (t : Nat)
    (hw : ∀ w, w < words → wget domain (cell * words + w) < 4294967296)
    (hne : domainIsEmpty domain cell words = false) :
    (∃ k : Nat, (pickTileFromDomainWeighted domain cell words tiles t).1 = (k : Int)
      ∧ memCell domain cell words k = true)
    ∧ (∃ k : Nat, (pickTileFromDomain domain cell words t).1 = (k : Int)
      ∧ memCell domain cell words k = true)
    ∧ (∀ k, memCell domain cell words k = true →
        ∀ i, memCell (restrictToTile domain cell words k) cell words i = (i == k)) := by
  have huni : ∃ k : Nat, (pickTileFromDomain domain cell words t).1 = (k : Int)
      ∧ memCell domain cell words k = true := by
    rw [pickTileFromDomain]
    have hnil := cellBits_ne_nil domain cell words hne
    have hlen : 0 < (cellBits domain cell words).length :=
      List.length_pos.mpr hnil
    have hidx : (rngNext t).2 * (cellBits domain cell words).length / 4294967296
        < (cellBits domain cell words).length := by
      rw [Nat.div_lt_iff_lt_mul (by norm_num)]
      have := rngNext_out_lt t
      calc (rngNext t).2 * (cellBits domain cell words).length
          < 4294967296 * (cellBits domain cell words).length := by
            exact (Nat.mul_lt_mul_right hlen).mpr this
        _ = (cellBits domain cell words).length * 4294967296 := by ring
    refine ⟨(cellBits domain cell words).getD
      ((rngNext t).2 * (cellBits domain cell words).length / 4294967296) 0, rfl, ?_⟩
    refine cellBits_mem domain cell words hw _ ?_
    rw [List.getD_eq_getElem _ _ hidx]
    exact List.getElem_mem _
  refine ⟨?_, huni, fun k hk => restrictToTile_memCell domain cell words k hk⟩
  rw [pickTileFromDomainWeighted]
  by_cases htot : qLe (totalWeight tiles (cellBits domain cell words)) (JsNum.ofNat 0)
      = true
  · rw [if_pos htot]
    exact huni
  · rw [if_neg htot]
    rcases hpick : weightedPickGo tiles
        (qMul ⟨((rngNext t).2 : Int), 4294967296⟩
          (totalWeight tiles (cellBits domain cell words)))
        (cellBits domain cell words) with _ | idx
    · obtain ⟨w0, hw0, hnz0⟩ := (domainIsEmpty_eq_false_iff _ _ _).mp hne
      obtain ⟨k, hk1, hk2⟩ := lastResortGo_mem domain cell words hw
        (List.range words).reverse
        (by intro x hx
            rw [List.mem_reverse, List.mem_range] at hx
            exact hx)
        ⟨w0, by rw [List.mem_reverse]; exact List.mem_range.mpr hw0, hnz0⟩
      refine ⟨k, ?_, hk2⟩
      simp only [hpick, hk1]
    · refine ⟨idx, ?_, cellBits_mem domain cell words hw idx
        (weightedPickGo_mem tiles _ _ idx hpick)⟩
      simp only [hpick]

/-- Witness for C10 at a concrete two-word-free slice (`[3, 3]`, cell 0,
one word) and catalog. -/
theorem pick_membership_witness :
    (∃ k : Nat, (pickTileFromDomainWeighted [3, 3] 0 1 catXY 7).1 = (k : Int)
      ∧ memCell [3, 3] 0 1 k = true)
    ∧ (∃ k : Nat, (pickTileFromDomain [3, 3] 0 1 7).1 = (k : Int)
      ∧ memCell [3, 3] 0 1 k = true)
    ∧ (∀ k, memCell [3, 3] 0 1 k = true →
        ∀ i, memCell (restrictToTile [3, 3] 0 1 k) 0 1 i = (i == k)) :=
  pick_membership [3, 3] 0 1 catXY 7 (by decide) (by decide)

theorem wget_replicate_zero (n j : Nat) : wget (List.replicate n 0) j = 0 := by
  rw [wget, List.getD_eq_getElem?_getD]
  rcases Nat.lt_or_ge j n with h | h
  · rw [List.getElem?_replicate, if_pos h]
    rfl
  · rw [List.getElem?_eq_none (by simpa using h)]
    rfl

theorem foldSetF_length (v : Nat) (idx : Nat → Nat) :
    ∀ (L : List Nat) (d : List Nat),
    (L.foldl (fun d w => d.set (idx w) v) d).length = d.length := by
  intro L
  induction L with
  | nil => intro d; rfl
  | cons w L ih =>
    intro d
    rw [List.foldl_cons, ih]
    simp

theorem foldSetF_wget (v : Nat) (idx : Nat → Nat) :
    ∀ (L : List Nat) (d : List Nat) (j : Nat),
    wget (L.foldl (fun d w => d.set (idx w) v) d) j
      = if (∃ w ∈ L, j = idx w) ∧ j < d.length then v else wget d j := by
  intro L
  induction L with
  | nil => intro d j; simp
  | cons w L ih =>
    intro d j
    rw [List.foldl_cons, ih]
    have hlen : (d.set (idx w) v).length = d.length := by simp
    rw [hlen]
    by_cases hcl : (∃ x ∈ L, j = idx x) ∧ j < d.length
    · obtain ⟨⟨x, hx, hjx⟩, hjl⟩ := hcl
      rw [if_pos ⟨⟨x, hx, hjx⟩, hjl⟩,
        if_pos ⟨⟨x, List.mem_cons_of_mem w hx, hjx⟩, hjl⟩]
    · rw [if_neg hcl]
      by_cases hj : j = idx w
      · by_cases hin : j < d.length
        · have hv : wget (d.set (idx w) v) j = v := by
            rw [hj]
            exact wget_set_eq _ _ _ (hj ▸ hin)
          rw [hv, if_pos ⟨⟨w, List.mem_cons_self w L, hj⟩, hin⟩]
        · rw [wget_set_oob _ _ _ (by omega), if_neg (fun hc => hin hc.2)]
      · rw [wget_set_ne _ _ _ _ (fun hh => hj hh.symm)]
        have hneg : ¬ ((∃ x ∈ w :: L, j = idx x) ∧ j < d.length) := by
          rintro ⟨⟨x, hx, hjx⟩, hjlen⟩
          rcases List.mem_cons.mp hx with rfl | hx
          · exact hj hjx
          · exact hcl ⟨⟨x, hx, hjx⟩, hjlen⟩
        rw [if_neg hneg]

theorem maskIdxFold_step (m : Nat) (idx : Nat → Nat) (d : List Nat) (c j : Nat) :
    wget (d.set (idx c) (wget d (idx c) &&& m)) j
      = if j = idx c then wget d j &&& m else wget d j := by
  by_cases hj : j = idx c
  · rw [if_pos hj]
    by_cases hin : idx c < d.length
    · have hv : wget (d.set (idx c) (wget d (idx c) &&& m)) j
          = wget d (idx c) &&& m := by
        rw [hj]
        exact wget_set_eq _ _ _ hin
      rw [hv, hj]
    · have h0 : wget d (idx c) = 0 := by
        by_contra h0
        exact absurd (wget_lt_length _ _ h0) hin
      rw [wget_set_oob _ _ _ (by omega), hj, h0, Nat.zero_and]
  · rw [if_neg hj, wget_set_ne _ _ _ _ (fun hh => hj hh.symm)]

theorem maskIdxFold_wget (m : Nat) (idx : Nat → Nat) :
    ∀ (L : List Nat) (d : List Nat) (j : Nat),
    wget (L.foldl (fun d c => d.set (idx c) (wget d (idx c) &&& m)) d) j
      = if ∃ c ∈ L, j = idx c then wget d j &&& m else wget d j := by
  intro L
  induction L with
  | nil => intro d j; simp
  | cons c L ih =>
    intro d j
    rw [List.foldl_cons, ih]
    by_cases hj : j = idx c
    · have hwm : ∃ x ∈ c :: L, j = idx x := ⟨c, List.mem_cons_self c L, hj⟩
      rw [if_pos hwm, maskIdxFold_step, if_pos hj]
      by_cases hmem : ∃ x ∈ L, j = idx x
      · rw [if_pos hmem, Nat.and_assoc, Nat.and_self]
      · rw [if_neg hmem]
    · have hstep := maskIdxFold_step m idx d c j
      rw [if_neg hj] at hstep
      rw [hstep]
      by_cases hmem : ∃ x ∈ L, j = idx x
      · have hwm : ∃ x ∈ c :: L, j = idx x := by
          obtain ⟨x, hx, hjx⟩ := hmem
          exact ⟨x, List.mem_cons_of_mem c hx, hjx⟩
        rw [if_pos hmem, if_pos hwm]
      · have hwm : ¬ ∃ x ∈ c :: L, j = idx x := by
          rintro ⟨x, hx, hjx⟩
          rcases List.mem_cons.mp hx with rfl | hx
          · exact hj hjx
          · exact hmem ⟨x, hx, hjx⟩
        rw [if_neg hmem, if_neg hwm]

theorem fillAll_uni_wget (cells : Nat) (d : List Nat) (j : Nat) :
    wget ((List.range cells).foldl (fun d c => setAll d c 1) d) j
      = if (∃ c ∈ List.range cells, j = c * 1 + 0) ∧ j < d.length
        then 0xffffffff else wget d j := by
  show wget ((List.range cells).foldl
      (fun d c => d.set ((fun c => c * 1 + 0) c) 0xffffffff) d) j = _
  exact foldSetF_wget 0xffffffff (fun c => c * 1 + 0) (List.range cells) d j

theorem maskUnusedHighBits_uni_wget (cells : Nat) (d : List Nat) (j : Nat) :
    wget (maskUnusedHighBits d cells 1 1) j
      = if ∃ c ∈ List.range cells, j = c * 1 + (1 - 1)
        then wget d j &&& (0xffffffff >>> (1 * 32 - 1)) else wget d j := by
  show wget ((List.range cells).foldl
      (fun dd c => dd.set ((fun c => c * 1 + (1 - 1)) c)
        (wget dd ((fun c => c * 1 + (1 - 1)) c) &&& (0xffffffff >>> (1 * 32 - 1)))) d)
      j = _
  exact maskIdxFold_wget (0xffffffff >>> (1 * 32 - 1)) (fun c => c * 1 + (1 - 1))
    (List.range cells) d j

theorem sUniPre_domain_wget (W H seed j : Nat) :
    wget (sUniPre W H seed).domain j = if j < W * H then 1 else 0 := by
  have h1 : (sUniPre W H seed).domain
      = maskUnusedHighBits
          ((List.range (W * H)).foldl (fun d c => setAll d c 1)
            (List.replicate (W * H * 1) 0)) (W * H) 1 1 := rfl
  rw [h1, maskUnusedHighBits_uni_wget, fillAll_uni_wget, List.length_replicate,
    wget_replicate_zero]
  by_cases hj : j < W * H
  · have hex : ∃ c ∈ List.range (W * H), j = c * 1 + (1 - 1) :=
      ⟨j, List.mem_range.mpr hj, by omega⟩
    have hex0 : (∃ c ∈ List.range (W * H), j = c * 1 + 0) ∧ j < W * H * 1 :=
      ⟨⟨j, List.mem_range.mpr hj, by omega⟩, by omega⟩
    rw [if_pos hex, if_pos hex0, if_pos hj]
    decide
  · have hex : ¬ ∃ c ∈ List.range (W * H), j = c * 1 + (1 - 1) := by
      rintro ⟨c, hc, hjc⟩
      rw [List.mem_range] at hc
      omega
    have hex0 : ¬ ((∃ c ∈ List.range (W * H), j = c * 1 + 0) ∧ j < W * H * 1) := by
      rintro ⟨⟨c, hc, hjc⟩, hlen⟩
      rw [List.mem_range] at hc
      omega
    rw [if_neg hex, if_neg hex0, if_neg hj]


/-- The verbatim constructor record evaluates fieldwise to `s0Uni`. -/
theorem sVerb_eq_s0Uni (W H seed : Nat) : sVerb W H seed = s0Uni W H seed := by
  have hbv : buildVariants [tileUni] ((optsSeed seed).allowRotate.getD false) = [vUni] := rfl
  have hw1 : wordCount ([vUni] : List Variant).length = 1 := rfl
  have hcfg : uniCfgOpt W H seed = some (uniCfg (W * H)) := rfl
  rw [sVerb, s0Uni]
  congr 1
  case e_domain => rw [hbv, hw1]
  case e_coreGrassMask => rw [hbv, hw1, hcfg]; simp [uniCfg]
  case e_rimGrassMask => rw [hbv, hw1, hcfg]; simp [uniCfg]

/-- On the single-variant catalog the constructor lands exactly on `sUniPre`:
the macro pass is a no-op because both grass masks are `[0]`. -/
theorem mkStepper_uni_eq (W H seed : Nat) :
    mkStepper [tileUni] W H (optsSeed seed) = sUniPre W H seed := by
  have h0 : mkStepper [tileUni] W H (optsSeed seed) = resetDomain (sVerb W H seed) := rfl
  have h2 : resetDomain (s0Uni W H seed) = applyMacroGrassBias (sUniPre W H seed) := rfl
  have h3 : applyMacroGrassBias (sUniPre W H seed) = sUniPre W H seed := rfl
  rw [h0, sVerb_eq_s0Uni W H seed, h2, h3]

theorem countDomain_uni_le (W H seed : Nat) :
    ∀ cell, cell < (sUniPre W H seed).cells →
      countDomain (sUniPre W H seed).domain cell (sUniPre W H seed).words ≤ 1 := by
  intro cell hcell
  have hcells : (sUniPre W H seed).cells = W * H := rfl
  rw [hcells] at hcell
  have hc : countDomain (sUniPre W H seed).domain cell 1
      = 0 + countBits32 (wget (sUniPre W H seed).domain (cell * 1 + 0)) := rfl
  show countDomain (sUniPre W H seed).domain cell 1 ≤ 1
  rw [hc, Nat.zero_add, sUniPre_domain_wget, if_pos (by omega : cell * 1 + 0 < W * H)]
  decide

theorem findMinGo_skip (domain : List Nat) (cells words start : Nat)
    (h : ∀ cell, cell < cells → countDomain domain cell words ≤ 1) :
    ∀ (is : List Nat) (bc : Option Nat) (bcell : Int), 0 < cells →
      findMinGo domain cells words start is bc bcell = bcell := by
  intro is
  induction is with
  | nil => intro bc bcell hc; rfl
  | cons i is ih =>
    intro bc bcell hc
    have hlt : (start + i) % cells < cells := Nat.mod_lt _ hc
    show (if countDomain domain ((start + i) % cells) words ≤ 1
        then findMinGo domain cells words start is bc bcell
        else _) = bcell
    rw [if_pos (h _ hlt)]
    exact ih bc bcell hc

theorem findMinEntropyCell_none (domain : List Nat) (cells words t : Nat)
    (h : ∀ cell, cell < cells → countDomain domain cell words ≤ 1) :
    findMinEntropyCell domain cells words t = (-1, (rngNext t).1) := by
  rcases Nat.eq_zero_or_pos cells with hc | hc
  · subst hc
    rfl
  · show (findMinGo domain cells words ((rngNext t).2 * cells / 4294967296)
        (List.range cells) none (-1), (rngNext t).1) = (-1, (rngNext t).1)
    rw [findMinGo_skip domain cells words ((rngNext t).2 * cells / 4294967296) h
      (List.range cells) none (-1) hc]

theorem propagateLoop_nil (s : Stepper) (ev : List WfcEvent) (m : Nat)
    (hq : s.queue = []) : propagateLoop s ev m = (ev, s, false) := by
  cases m with
  | zero => rfl
  | succ b => simp only [propagateLoop, hq]

theorem step_all_collapsed (s : Stepper) (n m : Nat) (hn : 1 ≤ n)
    (hq : s.queue = [])
    (h : ∀ cell, cell < s.cells → countDomain s.domain cell s.words ≤ 1) :
    step s n m = ([WfcEvent.done], { s with rng := (rngNext s.rng).1 }) := by
  obtain ⟨i, rfl⟩ : ∃ i, n = i + 1 := ⟨n - 1, by omega⟩
  rw [step]
  simp only [stepLoop]
  rw [propagateLoop_nil s [] m hq]
  simp [hq, findMinEntropyCell_none s.domain s.cells s.words s.rng h]

theorem getSingleIndex_uni (domain : List Nat) (c : Nat)
    (h : wget domain (c * 1 + 0) = 1) : getSingleIndex domain c 1 = 0 := by
  show (if wget domain (c * 1 + 0) ≠ 0
      then ((0 * 32 + popLowestBitIndex (wget domain (c * 1 + 0)) : Nat) : Int)
      else getSingleIndexGo domain c 1 []) = 0
  rw [h]
  rfl

theorem buildResult_uni (s : Stepper) (W H : Nat) (hc : s.cells = W * H)
    (hw : s.words = 1) (hd : ∀ j, wget s.domain j = if j < W * H then 1 else 0) :
    buildResult s = List.replicate (W * H) 0 := by
  rw [buildResult, hc, hw]
  refine List.eq_replicate_iff.mpr ⟨by simp, ?_⟩
  intro x hx
  rw [List.mem_map] at hx
  obtain ⟨c, hcmem, rfl⟩ := hx
  rw [List.mem_range] at hcmem
  have h1 : wget s.domain (c * 1 + 0) = 1 := by
    rw [hd, if_pos (by omega)]
  rw [getSingleIndex_uni s.domain c h1]
  rfl

/-- C2.  The spec's claim — one `collapse` per cell, then `done` — is false
for a single-variant catalog: every cell starts with exactly one candidate,
`findMinEntropyCell` skips cells with `count <= 1`, so the very first
`step` call emits `done` alone, with zero `collapse` events.  On the spec's
own 1-by-1 instance, `step(1)` emits `[done]`, not a `collapse` followed by
`done`. -/
theorem single_variant_no_collapse_cex :
    (step (mkStepper [tileUni] 1 1 (optsSeed 7)) 1 50).1 = [WfcEvent.done]
    ∧ ((step (mkStepper [tileUni] 1 1 (optsSeed 7)) 1 50).1.all
        (fun e => match e with | WfcEvent.collapse _ _ => false | _ => true)) = true
    ∧ buildResult (step (mkStepper [tileUni] 1 1 (optsSeed 7)) 1 50).2 = [0] := by
  refine ⟨by decide, by decide, by decide⟩

/-- C2 (amended).  For a catalog with exactly one variant (all edges
non-empty), on any `W`-by-`H` grid every cell's domain is the singleton
`{0}` from the start, so the first `step` call — whatever its positive
collapse budget — emits exactly `[done]` with no `collapse` event, and
every cell ends holding that single variant (tile index `0`). -/
theorem single_variant_immediate_done (W H seed n m : Nat) (hn : 1 ≤ n) :
    (step (mkStepper [tileUni] W H (optsSeed seed)) n m).1 = [WfcEvent.done]
    ∧ buildResult (step (mkStepper [tileUni] W H (optsSeed seed)) n m).2
        = List.replicate (W * H) 0 := by
  have hstep := step_all_collapsed (sUniPre W H seed) n m hn rfl
    (countDomain_uni_le W H seed)
  rw [mkStepper_uni_eq, hstep]
  exact ⟨rfl, buildResult_uni _ W H rfl rfl (fun j => sUniPre_domain_wget W H seed j)⟩

/-- Witness for C2 on the spec's 3-by-3 instance: the first `step(9)` call
returns `[done]` and all nine cells hold variant `0`. -/
theorem single_variant_immediate_done_witness :
    (step (mkStepper [tileUni] 3 3 (optsSeed 12345)) 9 50).1 = [WfcEvent.done]
    ∧ buildResult (step (mkStepper [tileUni] 3 3 (optsSeed 12345)) 9 50).2
        = List.replicate (3 * 3) 0 :=
  single_variant_immediate_done 3 3 12345 9 50 (by decide)
